import Mathlib

/-!
# Verification of the `comment-parser` scanning engine

A shallow embedding of `src/parse.rs` (and its small rule model from
`src/syntax.rs`).  Buffers are byte lists (`List Nat`, each entry a byte
value), string slices are represented by explicit spans (start/stop byte
offsets into the original buffer), and every Rust operation that can
panic (slicing out of bounds or at a non-UTF-8-char-boundary index,
`windows(0)`) is modelled by `Except Unit`, with `.error ()` standing
for a panic.

The two line-boundary helpers come from the external `line_span` crate,
whose source is not part of this repository; they are modelled from the
specification's §4.2 description.
-/

deriving instance DecidableEq for Except

namespace CommentParserModel

/-- A half-open byte range `[start, stop)` into the scanned buffer; this
is the information content of a Rust `&str` slice of the buffer. -/
structure Span where
  start : Nat
  stop : Nat
  deriving DecidableEq, Repr

/-- `SyntaxRule` from `src/syntax.rs`: the three recognizable lexical
region kinds, each carrying its delimiter byte sequences. -/
inductive SyntaxRule where
  | lineComment (start : List Nat)
  | blockComment (start stop : List Nat)
  | string (start : List Nat)
  deriving DecidableEq, Repr

namespace SyntaxRule

/-- `SyntaxRule::start`: the start delimiter of a rule. -/
def start : SyntaxRule → List Nat
  | .lineComment s => s
  | .blockComment s _ => s
  | .string s => s

/-- `SyntaxRule::max_rule_len`: the maximum length among all rules'
start sequences (`unwrap_or(0)` for the empty rule list). -/
def maxRuleLen (rules : List SyntaxRule) : Nat :=
  ((rules.map start).map List.length).foldr max 0

/-- `SyntaxRule::check_rules`: `true` iff no rule contains an empty
delimiter sequence. -/
def checkRules (rules : List SyntaxRule) : Bool :=
  !(rules.any fun rule =>
    match rule with
    | .lineComment s => s.isEmpty
    | .string s => s.isEmpty
    | .blockComment s e => s.isEmpty || e.isEmpty)

end SyntaxRule

/-- The internal `RawEvent` of `src/parse.rs`, with each `&str` field
replaced by its span into the buffer. -/
inductive RawEvent where
  | lineComment (raw text : Span)
  | blockComment (raw text : Span)
  | string (raw text : Span)
  deriving DecidableEq, Repr

/-- The public `Event` of `src/parse.rs` (spans instead of `&str`). -/
inductive Event where
  | lineComment (raw text : Span)
  | blockComment (raw text : Span)
  deriving DecidableEq, Repr

/-- `RawEvent::into_event`: comment events pass through, string regions
are discarded. -/
def RawEvent.intoEvent : RawEvent → Option Event
  | .lineComment raw text => some (.lineComment raw text)
  | .blockComment raw text => some (.blockComment raw text)
  | .string _ _ => none

/-- The raw span of a public event. -/
def Event.rawSpan : Event → Span
  | .lineComment raw _ => raw
  | .blockComment raw _ => raw

/-- The text span of a public event. -/
def Event.textSpan : Event → Span
  | .lineComment _ text => text
  | .blockComment _ text => text

/-- The bytes of the buffer denoted by offsets `[a, b)`; the content of
the Rust slice `&text[a..b]` when that slice is in bounds. -/
def slice (text : List Nat) (a b : Nat) : List Nat :=
  (text.drop a).take (b - a)

/-- Rust `str::is_char_boundary`: position 0 always is; the buffer end
is; otherwise the byte at the position must not be a UTF-8 continuation
byte (`0x80..=0xBF`). -/
def isCharBoundary (text : List Nat) (i : Nat) : Bool :=
  if i = 0 then true
  else
    match text.get? i with
    | none => i == text.length
    | some b => b < 128 || 192 ≤ b

/-- Whether the Rust `&str` slice `&text[a..b]` succeeds (taking it
panics otherwise): the range must be ordered, within the buffer, and
both endpoints must be UTF-8 char boundaries. -/
def sliceOk (text : List Nat) (a b : Nat) : Bool :=
  a ≤ b && b ≤ text.length && isCharBoundary text a && isCharBoundary text b

/-- Rule sets whose delimiter sequences consist of ASCII bytes only
(every byte < 128); every predefined rule set of `languages.rs` is of
this form. -/
def asciiRules (rules : List SyntaxRule) : Bool :=
  rules.all fun rule =>
    match rule with
    | .lineComment s => s.all fun b => b < 128
    | .blockComment s e => (s.all fun b => b < 128) && (e.all fun b => b < 128)
    | .string s => s.all fun b => b < 128

/-- A byte-level consequence of UTF-8 validity, and thus true of every
buffer a Rust `&str` can hold: a UTF-8 continuation byte
(`0x80..=0xBF`) never directly follows an ASCII byte (< 128). -/
def noContAfterAscii (text : List Nat) : Bool :=
  (List.range text.length).all fun i =>
    match text.get? i, text.get? (i + 1) with
    | some b, some c => !(b < 128 && 128 ≤ c && c < 192)
    | _, _ => true

/-- Rust `slice::windows(n)`: all contiguous subslices of length `n`.
(The Rust version asserts `n ≠ 0`; callers below model that panic.) -/
def windowsL (n : Nat) (l : List Nat) : List (List Nat) :=
  (List.range (l.length + 1 - n)).map fun i => (l.drop i).take n

/-- Rust `Iterator::position`: index of the first element satisfying
`p`, if any. -/
def position (p : α → Bool) : List α → Option Nat
  | [] => none
  | a :: l => if p a then some 0 else (position p l).map (· + 1)

/-- The window search of `CommentParser::next_event`: the first window
(together with its index) at which some rule's start sequence is a
prefix, choosing the first such rule in rule-set order. -/
def scanWindows (rules : List SyntaxRule) : List (List Nat) → Option (Nat × SyntaxRule)
  | [] => none
  | w :: ws =>
    match rules.find? (fun rule => rule.start.isPrefixOf w) with
    | some rule => some (0, rule)
    | none => (scanWindows rules ws).map fun ir => (ir.1 + 1, ir.2)

/-- Modelled from the spec (§4.2 Line-Boundary Utility; the code
delegates to the external `line_span` crate, not part of this
repository): the start of the physical line containing `offset` — one
past the last line-feed byte before `offset`, or 0 if there is none. -/
def findLineStart (text : List Nat) (offset : Nat) : Nat :=
  match position (fun b => b == 10) ((text.take offset).reverse) with
  | some i => offset - i
  | none => 0

/-- Trim a carriage-return byte directly before a candidate line end
(part of the spec-modelled line-boundary utility §4.2). -/
def lineEndTrim (text : List Nat) (e : Nat) : Nat :=
  if 0 < e ∧ text.get? (e - 1) = some 13 then e - 1 else e

/-- Modelled from the spec (§4.2): the end of the physical line
containing `offset`, excluding line-terminator characters — the first
line-feed at or after `offset` (or end of buffer), minus a directly
preceding carriage return. -/
def findLineEnd (text : List Nat) (offset : Nat) : Nat :=
  lineEndTrim text
    (match position (fun b => b == 10) (text.drop offset) with
      | some i => offset + i
      | none => text.length)

/-- Modelled from the spec (§4.2): the offset of the first character
after the line terminator following `offset`, or end of buffer if none
exists. -/
def findNextLineStart (text : List Nat) (offset : Nat) : Nat :=
  match position (fun b => b == 10) (text.drop offset) with
  | some i => offset + i + 1
  | none => text.length

/-- The scanner state (`CommentParser` in `src/parse.rs`). -/
structure CommentParser where
  text : List Nat
  index : Nat
  rules : List SyntaxRule
  maxRuleLen : Nat
  deriving DecidableEq, Repr

/-- `CommentParser::new`: asserts `check_rules` (the panic is modelled
by `none`) and starts the cursor at 0. -/
def CommentParser.new (text : List Nat) (rules : List SyntaxRule) : Option CommentParser :=
  if SyntaxRule.checkRules rules then
    some { text := text, index := 0, rules := rules,
           maxRuleLen := SyntaxRule.maxRuleLen rules }
  else none

/-- `CommentParser::parse_line_comment`.  Returns the event and the new
cursor; `.error ()` models the panics of the two `&str` slicings. -/
def parseLineComment (text : List Nat) (start : Nat) (s : List Nat) :
    Except Unit (RawEvent × Nat) :=
  let afterStart := start + s.length
  let lstart := findLineStart text start
  let lend := findLineEnd text start
  let newIndex := findNextLineStart text lend
  if sliceOk text lstart lend && sliceOk text afterStart lend then
    .ok (.lineComment ⟨lstart, lend⟩ ⟨afterStart, lend⟩, newIndex)
  else .error ()

/-- `CommentParser::parse_block_comment`.  `.error ()` models the
`windows(0)` panic (empty end delimiter) and slice-bounds panics. -/
def parseBlockComment (text : List Nat) (start : Nat) (s e : List Nat) :
    Except Unit (RawEvent × Nat) :=
  let afterStart := start + s.length
  if e.length = 0 then .error ()
  else
    let pr : Nat × Nat :=
      match position (fun w => w == e) (windowsL e.length (text.drop afterStart)) with
      | some i => (afterStart + i, afterStart + i + e.length)
      | none => (text.length, text.length)
    if sliceOk text start pr.2 && sliceOk text afterStart pr.1 then
      .ok (.blockComment ⟨start, pr.2⟩ ⟨afterStart, pr.1⟩, pr.2)
    else .error ()

/-- The stateful closing-delimiter search of
`CommentParser::parse_string`: a window directly after one whose first
byte is a (non-skipped) backslash is skipped; otherwise the first window
equal to the delimiter wins. -/
def stringScan (ruleEnd : List Nat) : List (List Nat) → Bool → Option Nat
  | [], _ => none
  | w :: ws, skip =>
    if skip then (stringScan ruleEnd ws false).map (· + 1)
    else if w.head? = some 92 then (stringScan ruleEnd ws true).map (· + 1)
    else if w == ruleEnd then some 0
    else (stringScan ruleEnd ws false).map (· + 1)

/-- `CommentParser::parse_string`: the closing delimiter is the rule's
start sequence; `.error ()` models the `windows(0)` panic (empty
delimiter) and slice-bounds panics. -/
def parseString (text : List Nat) (start : Nat) (s : List Nat) :
    Except Unit (RawEvent × Nat) :=
  let afterStart := start + s.length
  let ruleEnd := s
  if ruleEnd.length = 0 then .error ()
  else
    let pr : Nat × Nat :=
      match stringScan ruleEnd (windowsL ruleEnd.length (text.drop afterStart)) false with
      | some i => (afterStart + i, afterStart + i + ruleEnd.length)
      | none => (text.length, text.length)
    if sliceOk text start pr.2 && sliceOk text afterStart pr.1 then
      .ok (.string ⟨start, pr.2⟩ ⟨afterStart, pr.1⟩, pr.2)
    else .error ()

/-- `CommentParser::next_event`: find the earliest full window matching
some rule's start, dispatch on the matched rule; with no match set the
cursor to the buffer length.  Returns the optional raw event and the new
cursor.  `.error ()` models the `bytes[self.index..]` panic
(cursor past the end) and the `windows(0)` panic (`max_rule_len = 0`,
i.e. the empty rule list). -/
def nextEvent (p : CommentParser) : Except Unit (Option RawEvent × Nat) :=
  if p.text.length < p.index then .error ()
  else if p.maxRuleLen = 0 then .error ()
  else
    match scanWindows p.rules (windowsL p.maxRuleLen (p.text.drop p.index)) with
    | none => .ok (none, p.text.length)
    | some (i, rule) =>
      let start := p.index + i
      (match rule with
        | .lineComment s => parseLineComment p.text start s
        | .blockComment s e => parseBlockComment p.text start s e
        | .string s => parseString p.text start s).map
        fun (evi : RawEvent × Nat) => (some evi.1, evi.2)

/-- The `while let` loop inside `Iterator::next`: pull raw events until
one survives `into_event` or the scan reports no further match.  The
fuel argument only bounds the recursion; `text.length + 1 - index` is
always sufficient because every internally consumed string region
strictly advances the cursor. -/
def nextLoopF : Nat → CommentParser → Except Unit (Option Event × CommentParser)
  | 0, _ => .error ()
  | fuel + 1, p =>
    match nextEvent p with
    | .error e => .error e
    | .ok (none, i) => .ok (none, { p with index := i })
    | .ok (some ev, i) =>
      match ev.intoEvent with
      | some e => .ok (some e, { p with index := i })
      | none => nextLoopF fuel { p with index := i }

/-- `<CommentParser as Iterator>::next` (one `Advance` call): end of
input once the cursor equals the buffer length, otherwise the event
loop. -/
def CommentParser.next (p : CommentParser) : Except Unit (Option Event × CommentParser) :=
  if p.index = p.text.length then .ok (none, p)
  else nextLoopF (p.text.length + 1 - p.index) p

/-- Collect every remaining event of a scan (fueled; each event strictly
advances the cursor, so `text.length + 1 - index` suffices). -/
def runF : Nat → CommentParser → Except Unit (List Event)
  | 0, _ => .error ()
  | fuel + 1, p =>
    match CommentParser.next p with
    | .error e => .error e
    | .ok (none, _) => .ok []
    | .ok (some e, p') => (runF fuel p').map fun es => e :: es

/-- The list of all events of a full scan. -/
def CommentParser.run (p : CommentParser) : Except Unit (List Event) :=
  runF (p.text.length + 1 - p.index) p

/-- Iterate `Advance` `n` times, threading the scanner state. -/
def advanceN : Nat → CommentParser → Except Unit CommentParser
  | 0, p => .ok p
  | n + 1, p =>
    match CommentParser.next p with
    | .error e => .error e
    | .ok (_, p') => advanceN n p'

/-- Whether the byte sequence `e` occurs (as a contiguous subsequence)
anywhere in `l`. -/
def occursIn (e l : List Nat) : Bool :=
  (List.range (l.length + 1)).any fun j => e.isPrefixOf (l.drop j)

/-- Line-comment rule starts that can never make the matched line end
precede the end of the delimiter: they contain no line-feed byte and do
not end with a carriage-return byte. -/
def lineSafe (rules : List SyntaxRule) : Bool :=
  rules.all fun rule =>
    match rule with
    | .lineComment s => (s.all fun b => !(b == 10)) && !(s.getLast? == some 13)
    | _ => true

/-- States from which one `Advance` step is guaranteed panic-free: the
cursor is in bounds, the cached window size is the one `new` computes,
the rule set passes validation, is non-empty, its line-comment starts
are free of line-terminator bytes, its delimiters are ASCII, and the
buffer never puts a UTF-8 continuation byte directly after an ASCII
byte (true of every valid UTF-8 buffer). -/
def Ready (p : CommentParser) : Prop :=
  p.index ≤ p.text.length ∧
    p.maxRuleLen = SyntaxRule.maxRuleLen p.rules ∧
    SyntaxRule.checkRules p.rules = true ∧
    p.rules ≠ [] ∧
    lineSafe p.rules = true ∧
    asciiRules p.rules = true ∧
    noContAfterAscii p.text = true

instance (p : CommentParser) : Decidable (Ready p) := by
  unfold Ready
  infer_instance

/-- Spec-side description of an invalid rule, following the words of the
spec (§3 Data Model): some delimiter sequence of the rule is empty. -/
def hasEmptyDelimiter : SyntaxRule → Prop
  | .lineComment s => s = []
  | .blockComment s e => s = [] ∨ e = []
  | .string s => s = []

instance (r : SyntaxRule) : Decidable (hasEmptyDelimiter r) := by
  unfold hasEmptyDelimiter
  cases r <;> infer_instance

/-! ## Basic lemmas about the search primitives -/

theorem position_eq_none_iff {α : Type} {p : α → Bool} {l : List α} :
    position p l = none ↔ ∀ a ∈ l, p a = false := by
  induction l with
  | nil => simp [position]
  | cons a l ih =>
    by_cases h : p a
    · simp [position, h]
    · simp [position, h, Option.map_eq_none', ih]

theorem position_eq_some {α : Type} {p : α → Bool} {l : List α} {i : Nat}
    (h : position p l = some i) :
    (∃ a, l.get? i = some a ∧ p a = true) ∧
      ∀ j, j < i → ∀ a, l.get? j = some a → p a = false := by
  induction l generalizing i with
  | nil => simp [position] at h
  | cons a l ih =>
    by_cases hpa : p a
    · simp only [position, hpa, if_pos] at h
      cases h
      exact ⟨⟨a, rfl, hpa⟩, fun j hj => by omega⟩
    · simp only [position, hpa, if_neg, Bool.false_eq_true, not_false_iff,
        Option.map_eq_some'] at h
      obtain ⟨i', hi', rfl⟩ := h
      obtain ⟨⟨b, hb, hpb⟩, hfirst⟩ := ih hi'
      refine ⟨⟨b, by simpa using hb, hpb⟩, ?_⟩
      intro j hj c hc
      cases j with
      | zero =>
        simp only [List.get?_cons_zero, Option.some.injEq] at hc
        subst hc; exact (Bool.eq_false_iff.mpr hpa)
      | succ j =>
        exact hfirst j (by omega) c (by simpa using hc)

theorem position_lt_length {α : Type} {p : α → Bool} {l : List α} {i : Nat}
    (h : position p l = some i) : i < l.length := by
  obtain ⟨⟨a, ha, _⟩, _⟩ := position_eq_some h
  by_contra hlt
  rw [List.get?_eq_none.mpr (by omega)] at ha
  exact Option.noConfusion ha

theorem windowsL_length {n : Nat} {l : List Nat} :
    (windowsL n l).length = l.length + 1 - n := by
  simp [windowsL]

theorem windowsL_get? {n : Nat} {l : List Nat} {i : Nat} (h : i < l.length + 1 - n) :
    (windowsL n l).get? i = some ((l.drop i).take n) := by
  unfold windowsL
  rw [List.get?_map, List.get?_range h]
  rfl

theorem find?_eq_some_first {α : Type} {p : α → Bool} {l : List α} {a : α}
    (h : l.find? p = some a) :
    ∃ n, l.get? n = some a ∧ p a = true ∧
      ∀ m, m < n → ∀ b, l.get? m = some b → p b = false := by
  induction l with
  | nil => simp at h
  | cons c l ih =>
    by_cases hpc : p c
    · rw [List.find?_cons_of_pos _ hpc] at h
      cases h
      exact ⟨0, rfl, hpc, fun m hm => by omega⟩
    · rw [List.find?_cons_of_neg _ hpc] at h
      obtain ⟨n, h1, h2, h3⟩ := ih h
      refine ⟨n + 1, by simpa using h1, h2, ?_⟩
      intro m hm b hb
      cases m with
      | zero =>
        simp only [List.get?_cons_zero, Option.some.injEq] at hb
        subst hb; exact Bool.eq_false_iff.mpr hpc
      | succ m => exact h3 m (by omega) b (by simpa using hb)

theorem scanWindows_eq_none_iff {rules : List SyntaxRule} {ws : List (List Nat)} :
    scanWindows rules ws = none ↔
      ∀ w ∈ ws, rules.find? (fun rule => rule.start.isPrefixOf w) = none := by
  induction ws with
  | nil => simp [scanWindows]
  | cons w ws ih =>
    cases hf : rules.find? (fun rule => rule.start.isPrefixOf w) with
    | some r =>
      simp only [scanWindows, hf]
      constructor
      · intro h; exact Option.noConfusion h
      · intro h
        have := h w (List.mem_cons_self w ws)
        rw [hf] at this
        exact Option.noConfusion this
    | none =>
      simp only [scanWindows, hf, Option.map_eq_none']
      rw [ih]
      constructor
      · intro h w' hw'
        rcases List.mem_cons.mp hw' with rfl | hmem
        · exact hf
        · exact h w' hmem
      · intro h w' hw'
        exact h w' (List.mem_cons_of_mem _ hw')

theorem scanWindows_eq_some {rules : List SyntaxRule} {ws : List (List Nat)}
    {j : Nat} {r : SyntaxRule}
    (h : scanWindows rules ws = some (j, r)) :
    (∃ w, ws.get? j = some w ∧
        rules.find? (fun rule => rule.start.isPrefixOf w) = some r) ∧
      ∀ j' w', j' < j → ws.get? j' = some w' →
        rules.find? (fun rule => rule.start.isPrefixOf w') = none := by
  induction ws generalizing j with
  | nil => simp [scanWindows] at h
  | cons w ws ih =>
    cases hf : rules.find? (fun rule => rule.start.isPrefixOf w) with
    | some r' =>
      simp only [scanWindows, hf, Option.some.injEq, Prod.mk.injEq] at h
      obtain ⟨rfl, rfl⟩ := h
      exact ⟨⟨w, rfl, hf⟩, fun j' w' hj' => by omega⟩
    | none =>
      simp only [scanWindows, hf, Option.map_eq_some'] at h
      obtain ⟨⟨j₀, r₀⟩, h', heq⟩ := h
      simp only [Prod.mk.injEq] at heq
      obtain ⟨rfl, rfl⟩ := heq
      obtain ⟨⟨w₀, hw₀, hfind⟩, hbefore⟩ := ih h'
      refine ⟨⟨w₀, by simpa using hw₀, hfind⟩, ?_⟩
      intro j' w' hj' hget
      cases j' with
      | zero =>
        simp only [List.get?_cons_zero, Option.some.injEq] at hget
        subst hget; exact hf
      | succ j' => exact hbefore j' w' (by omega) (by simpa using hget)

theorem scanWindows_lt_length {rules : List SyntaxRule} {ws : List (List Nat)}
    {j : Nat} {r : SyntaxRule}
    (h : scanWindows rules ws = some (j, r)) : j < ws.length := by
  obtain ⟨⟨w, hw, _⟩, _⟩ := scanWindows_eq_some h
  by_contra hlt
  rw [List.get?_eq_none.mpr (by omega)] at hw
  exact Option.noConfusion hw

theorem stringScan_lt_length {ruleEnd : List Nat} {ws : List (List Nat)}
    {skip : Bool} {i : Nat}
    (h : stringScan ruleEnd ws skip = some i) : i < ws.length := by
  induction ws generalizing skip i with
  | nil => simp [stringScan] at h
  | cons w ws ih =>
    rw [stringScan] at h
    by_cases hs : skip
    · rw [if_pos hs, Option.map_eq_some'] at h
      obtain ⟨i', hi', rfl⟩ := h
      have := ih hi'
      simp only [List.length_cons]; omega
    · rw [if_neg hs] at h
      by_cases hh : w.head? = some 92
      · rw [if_pos hh, Option.map_eq_some'] at h
        obtain ⟨i', hi', rfl⟩ := h
        have := ih hi'
        simp only [List.length_cons]; omega
      · rw [if_neg hh] at h
        by_cases he : (w == ruleEnd) = true
        · rw [if_pos he] at h
          cases h
          simp only [List.length_cons]; omega
        · rw [if_neg he, Option.map_eq_some'] at h
          obtain ⟨i', hi', rfl⟩ := h
          have := ih hi'
          simp only [List.length_cons]; omega

/-! ## Prefix lemmas (over the `BEq`-valued `List.isPrefixOf`) -/

theorem isPrefixOf_eq_true_iff : ∀ {s l : List Nat},
    s.isPrefixOf l = true ↔ ∃ t, s ++ t = l
  | [], l => by simp [List.isPrefixOf]
  | a :: s, [] => by simp [List.isPrefixOf]
  | a :: s, b :: l => by
    simp only [List.isPrefixOf, Bool.and_eq_true, beq_iff_eq,
      List.cons_append, List.cons.injEq]
    constructor
    · rintro ⟨rfl, hp⟩
      obtain ⟨t, ht⟩ := isPrefixOf_eq_true_iff.mp hp
      exact ⟨t, rfl, ht⟩
    · rintro ⟨t, rfl, ht⟩
      exact ⟨rfl, isPrefixOf_eq_true_iff.mpr ⟨t, ht⟩⟩

theorem length_le_of_isPrefixOf {s l : List Nat} (h : s.isPrefixOf l = true) :
    s.length ≤ l.length := by
  obtain ⟨t, rfl⟩ := isPrefixOf_eq_true_iff.mp h
  simp

theorem get?_eq_of_isPrefixOf {s l : List Nat} {j : Nat}
    (h : s.isPrefixOf l = true) (hj : j < s.length) : l.get? j = s.get? j := by
  obtain ⟨t, rfl⟩ := isPrefixOf_eq_true_iff.mp h
  rw [List.get?_append hj]

theorem isPrefixOf_take_eq {s l : List Nat} {n : Nat} (h : s.length ≤ n) :
    s.isPrefixOf (l.take n) = s.isPrefixOf l := by
  cases hb1 : s.isPrefixOf (l.take n) <;> cases hb2 : s.isPrefixOf l <;> try rfl
  · exfalso
    obtain ⟨t, ht⟩ := isPrefixOf_eq_true_iff.mp hb2
    have : s.isPrefixOf (l.take n) = true := by
      refine isPrefixOf_eq_true_iff.mpr ⟨t.take (n - s.length), ?_⟩
      rw [← ht, List.take_append_eq_append_take, List.take_of_length_le h]
    rw [hb1] at this
    exact Bool.noConfusion this
  · exfalso
    obtain ⟨t, ht⟩ := isPrefixOf_eq_true_iff.mp hb1
    have : s.isPrefixOf l = true := by
      refine isPrefixOf_eq_true_iff.mpr ⟨t ++ l.drop n, ?_⟩
      rw [← List.append_assoc, ht, List.take_append_drop]
    rw [hb2] at this
    exact Bool.noConfusion this

/-! ## Rule-set lemmas -/

theorem checkRules_start_pos {rules : List SyntaxRule} {r : SyntaxRule}
    (h : SyntaxRule.checkRules rules = true) (hr : r ∈ rules) :
    0 < r.start.length := by
  simp only [SyntaxRule.checkRules, Bool.not_eq_true', List.any_eq_false] at h
  have hfalse := h r hr
  cases r with
  | lineComment s =>
    cases s with
    | nil => simp at hfalse
    | cons a s => simp [SyntaxRule.start]
  | blockComment s e =>
    cases s with
    | nil => simp at hfalse
    | cons a s => simp [SyntaxRule.start]
  | string s =>
    cases s with
    | nil => simp at hfalse
    | cons a s => simp [SyntaxRule.start]

theorem checkRules_blockEnd_pos {rules : List SyntaxRule} {s e : List Nat}
    (h : SyntaxRule.checkRules rules = true) (hr : SyntaxRule.blockComment s e ∈ rules) :
    0 < e.length := by
  simp only [SyntaxRule.checkRules, Bool.not_eq_true', List.any_eq_false] at h
  have hfalse := h _ hr
  cases e with
  | nil => simp at hfalse
  | cons a e => simp

theorem maxRuleLen_ge {rules : List SyntaxRule} {r : SyntaxRule} (hr : r ∈ rules) :
    r.start.length ≤ SyntaxRule.maxRuleLen rules := by
  induction rules with
  | nil => cases hr
  | cons a l ih =>
    simp only [SyntaxRule.maxRuleLen, List.map_cons, List.foldr_cons]
    rcases List.mem_cons.mp hr with rfl | hmem
    · exact le_max_left _ _
    · exact le_trans (ih hmem) (le_max_right _ _)


/-! ## Line-boundary utility lemmas -/

theorem findLineStart_eq_some {text : List Nat} {m i : Nat}
    (h : position (fun b => b == 10) ((text.take m).reverse) = some i) :
    findLineStart text m = m - i := by
  unfold findLineStart
  rw [h]

theorem findLineStart_eq_none {text : List Nat} {m : Nat}
    (h : position (fun b => b == 10) ((text.take m).reverse) = none) :
    findLineStart text m = 0 := by
  unfold findLineStart
  rw [h]

theorem findLineEnd_eq_some {text : List Nat} {m i : Nat}
    (h : position (fun b => b == 10) (text.drop m) = some i) :
    findLineEnd text m = lineEndTrim text (m + i) := by
  unfold findLineEnd
  rw [h]

theorem findLineEnd_eq_none {text : List Nat} {m : Nat}
    (h : position (fun b => b == 10) (text.drop m) = none) :
    findLineEnd text m = lineEndTrim text text.length := by
  unfold findLineEnd
  rw [h]

theorem findNextLineStart_eq_some {text : List Nat} {o i : Nat}
    (h : position (fun b => b == 10) (text.drop o) = some i) :
    findNextLineStart text o = o + i + 1 := by
  unfold findNextLineStart
  rw [h]

theorem findNextLineStart_eq_none {text : List Nat} {o : Nat}
    (h : position (fun b => b == 10) (text.drop o) = none) :
    findNextLineStart text o = text.length := by
  unfold findNextLineStart
  rw [h]

theorem lineEndTrim_le {text : List Nat} {e : Nat} : lineEndTrim text e ≤ e := by
  unfold lineEndTrim
  by_cases hc : 0 < e ∧ text.get? (e - 1) = some 13
  · rw [if_pos hc]; omega
  · rw [if_neg hc]

theorem lineEndTrim_ge {text : List Nat} {e k : Nat} (he : k ≤ e)
    (h13 : k = e → text.get? (e - 1) ≠ some 13) :
    k ≤ lineEndTrim text e := by
  unfold lineEndTrim
  by_cases hc : 0 < e ∧ text.get? (e - 1) = some 13
  · rw [if_pos hc]
    rcases Nat.lt_or_ge k e with hlt | hge
    · omega
    · exact absurd hc.2 (h13 (by omega))
  · rw [if_neg hc]; exact he

theorem findLineStart_le {text : List Nat} {m : Nat} : findLineStart text m ≤ m := by
  cases hE : position (fun b => b == 10) ((text.take m).reverse) with
  | none => rw [findLineStart_eq_none hE]; exact Nat.zero_le m
  | some i => rw [findLineStart_eq_some hE]; omega

theorem findLineStart_spec {text : List Nat} {m : Nat} (hm : m ≤ text.length) :
    (findLineStart text m = 0 ∨ text.get? (findLineStart text m - 1) = some 10) ∧
      ∀ j, findLineStart text m ≤ j → j < m → text.get? j ≠ some 10 := by
  have hlenR : ((text.take m).reverse).length = m := by
    simp [List.length_reverse, List.length_take, Nat.min_eq_left hm]
  have hRget : ∀ k, k < m →
      ((text.take m).reverse).get? k = text.get? (m - 1 - k) := by
    intro k hk
    have hlt : k < (text.take m).length := by
      rw [List.length_take]; omega
    rw [List.get?_reverse hlt, List.length_take, Nat.min_eq_left hm]
    exact List.get?_take (by omega)
  cases hE : position (fun b => b == 10) ((text.take m).reverse) with
  | none =>
    have hall := position_eq_none_iff.mp hE
    rw [findLineStart_eq_none hE]
    refine ⟨Or.inl rfl, ?_⟩
    intro j _ hj hcontra
    have hjR : ((text.take m).reverse).get? (m - 1 - j) = text.get? j := by
      rw [hRget (m - 1 - j) (by omega)]
      congr 1
      omega
    rw [hcontra] at hjR
    have h10 : (10 : Nat) ∈ (text.take m).reverse := List.get?_mem hjR
    have := hall 10 h10
    simp at this
  | some i =>
    rw [findLineStart_eq_some hE]
    have hi : i < m := by
      have := position_lt_length hE
      omega
    obtain ⟨⟨b, hb, hpb⟩, hfirst⟩ := position_eq_some hE
    have hbval : b = 10 := by simpa using hpb
    subst hbval
    rw [hRget i hi] at hb
    constructor
    · refine Or.inr ?_
      rw [show m - i - 1 = m - 1 - i by omega]
      exact hb
    · intro j hj hjm hcontra
      have hk : m - 1 - j < i := by omega
      have := hfirst (m - 1 - j) hk 10
        (by rw [hRget _ (by omega), show m - 1 - (m - 1 - j) = j by omega]; exact hcontra)
      simp at this

theorem findLineEnd_le {text : List Nat} {m : Nat} : findLineEnd text m ≤ text.length := by
  cases hE : position (fun b => b == 10) (text.drop m) with
  | none =>
    rw [findLineEnd_eq_none hE]
    exact lineEndTrim_le
  | some i =>
    rw [findLineEnd_eq_some hE]
    have hi := position_lt_length hE
    simp only [List.length_drop] at hi
    calc lineEndTrim text (m + i) ≤ m + i := lineEndTrim_le
    _ ≤ text.length := by omega

theorem findLineEnd_spec {text : List Nat} {m : Nat} (hm : m ≤ text.length) :
    (∀ j, m ≤ j → j < findLineEnd text m → text.get? j ≠ some 10) ∧
      (findLineEnd text m = text.length ∨
        text.get? (findLineEnd text m) = some 10 ∨
        (text.get? (findLineEnd text m) = some 13 ∧
          (findLineEnd text m + 1 = text.length ∨
            text.get? (findLineEnd text m + 1) = some 10))) := by
  have hdget : ∀ k, (text.drop m).get? k = text.get? (m + k) := fun k => List.get?_drop _ _ _
  cases hE : position (fun b => b == 10) (text.drop m) with
  | none =>
    have hall := position_eq_none_iff.mp hE
    have hno10 : ∀ j, m ≤ j → j < text.length → text.get? j ≠ some 10 := by
      intro j hj hjl hcontra
      have hg : ((text.drop m).get? (j - m)) = some 10 := by
        rw [hdget, show m + (j - m) = j by omega]; exact hcontra
      have h10 : (10 : Nat) ∈ text.drop m := List.get?_mem hg
      have := hall 10 h10
      simp at this
    rw [findLineEnd_eq_none hE]
    unfold lineEndTrim
    by_cases hc : 0 < text.length ∧ text.get? (text.length - 1) = some 13
    · rw [if_pos hc]
      refine ⟨fun j hj hjb => hno10 j hj (by omega), Or.inr (Or.inr ⟨hc.2, Or.inl (by omega)⟩)⟩
    · rw [if_neg hc]
      exact ⟨fun j hj hjb => hno10 j hj (by omega), Or.inl rfl⟩
  | some i =>
    obtain ⟨⟨b, hb, hpb⟩, hfirst⟩ := position_eq_some hE
    have hbval : b = 10 := by simpa using hpb
    subst hbval
    rw [hdget] at hb
    have hno10 : ∀ j, m ≤ j → j < m + i → text.get? j ≠ some 10 := by
      intro j hj hji hcontra
      have := hfirst (j - m) (by omega) 10
        (by rw [hdget, show m + (j - m) = j by omega]; exact hcontra)
      simp at this
    rw [findLineEnd_eq_some hE]
    unfold lineEndTrim
    by_cases hc : 0 < m + i ∧ text.get? (m + i - 1) = some 13
    · rw [if_pos hc]
      refine ⟨fun j hj hjb => hno10 j hj (by omega), Or.inr (Or.inr ⟨hc.2, Or.inr ?_⟩)⟩
      rw [show m + i - 1 + 1 = m + i by omega]
      exact hb
    · rw [if_neg hc]
      exact ⟨fun j hj hjb => hno10 j hj (by omega), Or.inr (Or.inl hb)⟩

theorem findLineEnd_ge {text : List Nat} {m k : Nat} (hk : 0 < k)
    (hlen : m + k ≤ text.length)
    (h10 : ∀ j, j < k → text.get? (m + j) ≠ some 10)
    (h13 : text.get? (m + k - 1) ≠ some 13) :
    m + k ≤ findLineEnd text m := by
  have hdget : ∀ j, (text.drop m).get? j = text.get? (m + j) := fun j => List.get?_drop _ _ _
  cases hE : position (fun b => b == 10) (text.drop m) with
  | none =>
    rw [findLineEnd_eq_none hE]
    refine lineEndTrim_ge hlen ?_
    intro heq
    rw [show text.length - 1 = m + k - 1 by omega]
    exact h13
  | some i =>
    obtain ⟨⟨b, hb, hpb⟩, _⟩ := position_eq_some hE
    have hbval : b = 10 := by simpa using hpb
    subst hbval
    rw [hdget] at hb
    have hik : k ≤ i := by
      by_contra hik
      exact h10 i (by omega) hb
    rw [findLineEnd_eq_some hE]
    refine lineEndTrim_ge (by omega) ?_
    intro heq
    rw [show m + i - 1 = m + k - 1 by omega]
    exact h13

theorem findLineEnd_lt_cases {text : List Nat} {m : Nat} (hm : m ≤ text.length)
    (h : findLineEnd text m < m) :
    findLineEnd text m = m - 1 ∧ text.get? (m - 1) = some 13 := by
  have trimCase : ∀ e : Nat, m ≤ e → lineEndTrim text e < m →
      lineEndTrim text e = m - 1 ∧ text.get? (m - 1) = some 13 := by
    intro e he hlt
    unfold lineEndTrim at hlt ⊢
    by_cases hc : 0 < e ∧ text.get? (e - 1) = some 13
    · rw [if_pos hc] at hlt ⊢
      have he' : e = m := by omega
      subst he'
      exact ⟨by omega, hc.2⟩
    · rw [if_neg hc] at hlt ⊢
      omega
  cases hE : position (fun b => b == 10) (text.drop m) with
  | none =>
    rw [findLineEnd_eq_none hE] at h ⊢
    exact trimCase text.length hm h
  | some i =>
    rw [findLineEnd_eq_some hE] at h ⊢
    exact trimCase (m + i) (by omega) h

theorem findNextLineStart_le {text : List Nat} {o : Nat} :
    findNextLineStart text o ≤ text.length := by
  cases hE : position (fun b => b == 10) (text.drop o) with
  | none => rw [findNextLineStart_eq_none hE]
  | some i =>
    rw [findNextLineStart_eq_some hE]
    have := position_lt_length hE
    simp only [List.length_drop] at this
    omega

theorem findNextLineStart_spec {text : List Nat} {o : Nat} :
    (∃ k, o ≤ k ∧ text.get? k = some 10 ∧ findNextLineStart text o = k + 1 ∧
      ∀ j, o ≤ j → j < k → text.get? j ≠ some 10) ∨
    (findNextLineStart text o = text.length ∧
      ∀ j, o ≤ j → j < text.length → text.get? j ≠ some 10) := by
  have hdget : ∀ j, (text.drop o).get? j = text.get? (o + j) := fun j => List.get?_drop _ _ _
  cases hE : position (fun b => b == 10) (text.drop o) with
  | none =>
    have hall := position_eq_none_iff.mp hE
    refine Or.inr ⟨findNextLineStart_eq_none hE, ?_⟩
    intro j hj hjl hcontra
    have hg : ((text.drop o).get? (j - o)) = some 10 := by
      rw [hdget, show o + (j - o) = j by omega]; exact hcontra
    have h10 : (10 : Nat) ∈ text.drop o := List.get?_mem hg
    have := hall 10 h10
    simp at this
  | some i =>
    obtain ⟨⟨b, hb, hpb⟩, hfirst⟩ := position_eq_some hE
    have hbval : b = 10 := by simpa using hpb
    subst hbval
    rw [hdget] at hb
    refine Or.inl ⟨o + i, by omega, hb, findNextLineStart_eq_some hE, ?_⟩
    intro j hj hji hcontra
    have := hfirst (j - o) (by omega) 10
      (by rw [hdget, show o + (j - o) = j by omega]; exact hcontra)
    simp at this

theorem findNextLineStart_progress {text : List Nat} {o : Nat} :
    o + 1 ≤ findNextLineStart text o ∨ findNextLineStart text o = text.length := by
  cases hE : position (fun b => b == 10) (text.drop o) with
  | none => exact Or.inr (findNextLineStart_eq_none hE)
  | some i => rw [findNextLineStart_eq_some hE]; exact Or.inl (by omega)

theorem findNextLineStart_findLineEnd_progress {text : List Nat} {m : Nat}
    (hm : m < text.length) :
    m + 1 ≤ findNextLineStart text (findLineEnd text m) ∨
      findNextLineStart text (findLineEnd text m) = text.length := by
  rcases Nat.lt_or_ge (findLineEnd text m) m with hlt | hge
  · obtain ⟨hb, h13⟩ := findLineEnd_lt_cases (by omega) hlt
    rcases @findNextLineStart_spec text (findLineEnd text m) with
      ⟨k, hk1, hk2, hk3, hk4⟩ | ⟨hn, _⟩
    · refine Or.inl ?_
      rcases Nat.lt_or_ge k m with hkm | hkm
      · exfalso
        have hkeq : k = m - 1 := by omega
        subst hkeq
        rw [hk2] at h13
        simp at h13
      · omega
    · exact Or.inr hn
  · rcases @findNextLineStart_progress text (findLineEnd text m) with h | h
    · exact Or.inl (by omega)
    · exact Or.inr h

/-! ## Char-boundary lemmas -/

theorem isCharBoundary_zero {text : List Nat} : isCharBoundary text 0 = true := by
  unfold isCharBoundary
  rw [if_pos rfl]

theorem isCharBoundary_length {text : List Nat} :
    isCharBoundary text text.length = true := by
  unfold isCharBoundary
  by_cases h0 : text.length = 0
  · rw [if_pos h0]
  · rw [if_neg h0, List.get?_eq_none.mpr (le_refl _)]
    simp

theorem isCharBoundary_of_byte {text : List Nat} {i b : Nat}
    (h : text.get? i = some b) (hb : b < 128 ∨ 192 ≤ b) :
    isCharBoundary text i = true := by
  unfold isCharBoundary
  by_cases h0 : i = 0
  · rw [if_pos h0]
  · rw [if_neg h0, h]
    simp only [Bool.or_eq_true, decide_eq_true_eq]
    omega

theorem noContAfterAscii_spec {text : List Nat} (h : noContAfterAscii text = true)
    {i b c : Nat} (hb : text.get? i = some b) (hc : text.get? (i + 1) = some c)
    (hb128 : b < 128) : c < 128 ∨ 192 ≤ c := by
  rw [noContAfterAscii, List.all_eq_true] at h
  have hi : i < text.length := by
    by_contra hge
    rw [List.get?_eq_none.mpr (by omega)] at hb
    exact Option.noConfusion hb
  have hx := h i (List.mem_range.mpr hi)
  rw [hb, hc] at hx
  dsimp only at hx
  simp at hx
  omega

theorem isCharBoundary_after_ascii {text : List Nat} {i : Nat}
    (hP : noContAfterAscii text = true) (hi0 : 0 < i) (hi : i ≤ text.length)
    {b : Nat} (hprev : text.get? (i - 1) = some b) (hb : b < 128) :
    isCharBoundary text i = true := by
  cases hgc : text.get? i with
  | none =>
    have hle := List.get?_eq_none.mp hgc
    have hieq : i = text.length := by omega
    rw [hieq]
    exact isCharBoundary_length
  | some c =>
    have hcc := noContAfterAscii_spec hP hprev
      (by rw [show i - 1 + 1 = i by omega]; exact hgc) hb
    exact isCharBoundary_of_byte hgc hcc

theorem asciiRules_start {rules : List SyntaxRule} {r : SyntaxRule}
    (h : asciiRules rules = true) (hr : r ∈ rules) : ∀ b ∈ r.start, b < 128 := by
  rw [asciiRules, List.all_eq_true] at h
  have hx := h r hr
  cases r with
  | lineComment s =>
    dsimp only at hx
    rw [List.all_eq_true] at hx
    intro b hb
    simpa using hx b hb
  | blockComment s e =>
    dsimp only at hx
    rw [Bool.and_eq_true, List.all_eq_true, List.all_eq_true] at hx
    intro b hb
    simpa using hx.1 b hb
  | string s =>
    dsimp only at hx
    rw [List.all_eq_true] at hx
    intro b hb
    simpa using hx b hb

theorem asciiRules_blockEnd {rules : List SyntaxRule} {s e : List Nat}
    (h : asciiRules rules = true) (hr : SyntaxRule.blockComment s e ∈ rules) :
    ∀ b ∈ e, b < 128 := by
  rw [asciiRules, List.all_eq_true] at h
  have hx := h _ hr
  dsimp only at hx
  rw [Bool.and_eq_true, List.all_eq_true, List.all_eq_true] at hx
  intro b hb
  simpa using hx.2 b hb

theorem get?_eq_of_take_eq {l e : List Nat} {j : Nat}
    (h : l.take e.length = e) (hj : j < e.length) : l.get? j = e.get? j := by
  rw [← h, List.get?_take hj]

/-! ## Parse-function lemmas -/

theorem sliceOk_iff {text : List Nat} {a b : Nat} :
    sliceOk text a b = true ↔
      a ≤ b ∧ b ≤ text.length ∧
        isCharBoundary text a = true ∧ isCharBoundary text b = true := by
  simp [sliceOk, Bool.and_eq_true, decide_eq_true_eq, and_assoc]

theorem parseLineComment_ok {text : List Nat} {start : Nat} {s : List Nat}
    {ev : RawEvent} {idx : Nat}
    (h : parseLineComment text start s = .ok (ev, idx)) :
    ev = .lineComment ⟨findLineStart text start, findLineEnd text start⟩
        ⟨start + s.length, findLineEnd text start⟩ ∧
      idx = findNextLineStart text (findLineEnd text start) ∧
      findLineStart text start ≤ findLineEnd text start ∧
      start + s.length ≤ findLineEnd text start ∧
      findLineEnd text start ≤ text.length := by
  simp only [parseLineComment] at h
  split at h
  case isTrue hc =>
    rw [Bool.and_eq_true, sliceOk_iff, sliceOk_iff] at hc
    simp only [Except.ok.injEq, Prod.mk.injEq] at h
    obtain ⟨h1, h2⟩ := h
    exact ⟨h1.symm, h2.symm, hc.1.1, hc.2.1, hc.2.2.1⟩
  case isFalse => exact Except.noConfusion h

theorem parseLineComment_ok_of {text : List Nat} {start : Nat} {s : List Nat}
    (hpre : s.isPrefixOf (text.drop start) = true)
    (hs : 0 < s.length)
    (hlen : start + s.length ≤ text.length)
    (h10 : ∀ b ∈ s, b ≠ 10)
    (h13 : s.getLast? ≠ some 13)
    (hascii : ∀ b ∈ s, b < 128)
    (hP : noContAfterAscii text = true) :
    ∃ ev idx, parseLineComment text start s = .ok (ev, idx) := by
  have hbytes : ∀ j, j < s.length → text.get? (start + j) = s.get? j := by
    intro j hj
    have hg := get?_eq_of_isPrefixOf hpre hj
    rw [List.get?_drop] at hg
    exact hg
  have hge : start + s.length ≤ findLineEnd text start := by
    refine findLineEnd_ge hs hlen ?_ ?_
    · intro j hj hcontra
      rw [hbytes j hj] at hcontra
      exact (h10 10 (List.get?_mem hcontra)) rfl
    · rw [show start + s.length - 1 = start + (s.length - 1) by omega,
        hbytes (s.length - 1) (by omega)]
      rw [List.getLast?_eq_get?] at h13
      exact h13
  have hle : findLineEnd text start ≤ text.length := findLineEnd_le
  have hstart : findLineStart text start ≤ findLineEnd text start :=
    le_trans findLineStart_le (by omega)
  have hm : start ≤ text.length := by omega
  have hcbL : isCharBoundary text (findLineStart text start) = true := by
    by_cases hz : findLineStart text start = 0
    · rw [hz]
      exact isCharBoundary_zero
    · obtain ⟨hb0, -⟩ := findLineStart_spec hm
      rcases hb0 with h0 | h0
      · exact absurd h0 hz
      · exact isCharBoundary_after_ascii hP (by omega)
          (le_trans findLineStart_le hm) h0 (by omega)
  have hcbE : isCharBoundary text (findLineEnd text start) = true := by
    obtain ⟨-, hend⟩ := findLineEnd_spec hm
    rcases hend with h0 | h0 | ⟨h0, -⟩
    · rw [h0]
      exact isCharBoundary_length
    · exact isCharBoundary_of_byte h0 (by omega)
    · exact isCharBoundary_of_byte h0 (by omega)
  have hcbA : isCharBoundary text (start + s.length) = true := by
    have hlast : text.get? (start + s.length - 1) = s.get? (s.length - 1) := by
      rw [show start + s.length - 1 = start + (s.length - 1) by omega]
      exact hbytes (s.length - 1) (by omega)
    cases hgl : s.get? (s.length - 1) with
    | none =>
      rw [List.get?_eq_none] at hgl
      omega
    | some b =>
      rw [hgl] at hlast
      have hb := hascii b (List.get?_mem hgl)
      exact isCharBoundary_after_ascii hP (by omega) hlen hlast hb
  cases hres : parseLineComment text start s with
  | ok r =>
    obtain ⟨ev, idx⟩ := r
    exact ⟨ev, idx, rfl⟩
  | error u =>
    exfalso
    simp only [parseLineComment] at hres
    split at hres
    case isTrue => exact Except.noConfusion hres
    case isFalse hc =>
      rw [Bool.and_eq_true, sliceOk_iff, sliceOk_iff] at hc
      exact hc ⟨⟨hstart, hle, hcbL, hcbE⟩, by omega, hle, hcbA, hcbE⟩

theorem parseBlockComment_ok {text : List Nat} {start : Nat} {s e : List Nat}
    {ev : RawEvent} {idx : Nat}
    (h : parseBlockComment text start s e = .ok (ev, idx)) :
    ∃ be, ev = .blockComment ⟨start, idx⟩ ⟨start + s.length, be⟩ ∧
      0 < e.length ∧ start + s.length ≤ be ∧ be ≤ idx ∧ idx ≤ text.length ∧
      (idx = be + e.length ∨ (be = text.length ∧ idx = text.length)) := by
  simp only [parseBlockComment] at h
  split at h
  case isTrue => exact Except.noConfusion h
  case isFalse he =>
    cases hP : position (fun w => w == e) (windowsL e.length (text.drop (start + s.length))) with
    | some i =>
      rw [hP] at h
      split at h
      case isTrue hc =>
        rw [Bool.and_eq_true, sliceOk_iff, sliceOk_iff] at hc
        simp only [Except.ok.injEq, Prod.mk.injEq] at h
        obtain ⟨h1, h2⟩ := h
        subst h2
        refine ⟨start + s.length + i, h1.symm, by omega, by omega, by omega,
          hc.1.2.1, Or.inl rfl⟩
      case isFalse => exact Except.noConfusion h
    | none =>
      rw [hP] at h
      split at h
      case isTrue hc =>
        rw [Bool.and_eq_true, sliceOk_iff, sliceOk_iff] at hc
        simp only [Except.ok.injEq, Prod.mk.injEq] at h
        obtain ⟨h1, h2⟩ := h
        subst h2
        exact ⟨text.length, h1.symm, by omega, hc.2.1, le_refl _, hc.1.2.1,
          Or.inr ⟨rfl, rfl⟩⟩
      case isFalse => exact Except.noConfusion h

theorem boundary_of_head_byte {text : List Nat} {m : Nat} {s : List Nat}
    (hbytes : ∀ j, j < s.length → text.get? (m + j) = s.get? j)
    (hs : 0 < s.length) (hascii : ∀ b ∈ s, b < 128) :
    isCharBoundary text m = true := by
  have h0 := hbytes 0 hs
  rw [Nat.add_zero] at h0
  cases hg0 : s.get? 0 with
  | none =>
    rw [List.get?_eq_none] at hg0
    omega
  | some b =>
    rw [hg0] at h0
    exact isCharBoundary_of_byte h0 (Or.inl (hascii b (List.get?_mem hg0)))

theorem boundary_of_last_byte {text : List Nat} {m : Nat} {s : List Nat}
    (hbytes : ∀ j, j < s.length → text.get? (m + j) = s.get? j)
    (hs : 0 < s.length) (hlen : m + s.length ≤ text.length)
    (hascii : ∀ b ∈ s, b < 128) (hP : noContAfterAscii text = true) :
    isCharBoundary text (m + s.length) = true := by
  have hlast : text.get? (m + s.length - 1) = s.get? (s.length - 1) := by
    rw [show m + s.length - 1 = m + (s.length - 1) by omega]
    exact hbytes (s.length - 1) (by omega)
  cases hgl : s.get? (s.length - 1) with
  | none =>
    rw [List.get?_eq_none] at hgl
    omega
  | some b =>
    rw [hgl] at hlast
    exact isCharBoundary_after_ascii hP (by omega) hlen hlast
      (hascii b (List.get?_mem hgl))

theorem parseBlockComment_ok_of {text : List Nat} {start : Nat} {s e : List Nat}
    (hpre : s.isPrefixOf (text.drop start) = true)
    (hs : 0 < s.length) (he : 0 < e.length)
    (hlen : start + s.length ≤ text.length)
    (hsascii : ∀ b ∈ s, b < 128) (heascii : ∀ b ∈ e, b < 128)
    (hP : noContAfterAscii text = true) :
    ∃ ev idx, parseBlockComment text start s e = .ok (ev, idx) := by
  have hbytesS : ∀ j, j < s.length → text.get? (start + j) = s.get? j := by
    intro j hj
    have hg := get?_eq_of_isPrefixOf hpre hj
    rw [List.get?_drop] at hg
    exact hg
  have hcbStart : isCharBoundary text start = true :=
    boundary_of_head_byte hbytesS hs hsascii
  have hcbAfter : isCharBoundary text (start + s.length) = true :=
    boundary_of_last_byte hbytesS hs hlen hsascii hP
  cases hres : parseBlockComment text start s e with
  | ok r =>
    obtain ⟨ev, idx⟩ := r
    exact ⟨ev, idx, rfl⟩
  | error u =>
    exfalso
    simp only [parseBlockComment] at hres
    split at hres
    case isTrue h0 => omega
    case isFalse h0 =>
      cases hPo : position (fun w => w == e)
          (windowsL e.length (text.drop (start + s.length))) with
      | some i =>
        rw [hPo] at hres
        dsimp only at hres
        split at hres
        case isTrue => exact Except.noConfusion hres
        case isFalse hc =>
          obtain ⟨⟨w, hw, hpw⟩, -⟩ := position_eq_some hPo
          have hi : i < (windowsL e.length (text.drop (start + s.length))).length := by
            by_contra hge
            rw [List.get?_eq_none.mpr (by omega)] at hw
            exact Option.noConfusion hw
          rw [windowsL_length, List.length_drop] at hi
          rw [windowsL_get? (by rw [List.length_drop]; omega)] at hw
          injection hw with hw
          have hweq : w = e := by simpa using hpw
          rw [hweq] at hw
          have hbytesE : ∀ j, j < e.length →
              text.get? (start + s.length + i + j) = e.get? j := by
            intro j hj
            have hg := get?_eq_of_take_eq hw hj
            rw [List.get?_drop, List.get?_drop] at hg
            rw [show start + s.length + i + j = start + s.length + (i + j) by omega]
            exact hg
          have hcbBefore : isCharBoundary text (start + s.length + i) = true :=
            boundary_of_head_byte hbytesE he heascii
          have hcbEnd : isCharBoundary text (start + s.length + i + e.length) = true :=
            boundary_of_last_byte hbytesE he (by omega) heascii hP
          rw [Bool.and_eq_true, sliceOk_iff, sliceOk_iff] at hc
          exact hc ⟨⟨by omega, by omega, hcbStart, hcbEnd⟩, by omega, by omega,
            hcbAfter, hcbBefore⟩
      | none =>
        rw [hPo] at hres
        dsimp only at hres
        split at hres
        case isTrue => exact Except.noConfusion hres
        case isFalse hc =>
          rw [Bool.and_eq_true, sliceOk_iff, sliceOk_iff] at hc
          exact hc ⟨⟨by omega, le_refl _, hcbStart, isCharBoundary_length⟩,
            by omega, le_refl _, hcbAfter, isCharBoundary_length⟩

theorem parseString_ok {text : List Nat} {start : Nat} {s : List Nat}
    {ev : RawEvent} {idx : Nat}
    (h : parseString text start s = .ok (ev, idx)) :
    ∃ be, ev = .string ⟨start, idx⟩ ⟨start + s.length, be⟩ ∧
      0 < s.length ∧ start + s.length ≤ be ∧ be ≤ idx ∧ idx ≤ text.length ∧
      (idx = be + s.length ∨ (be = text.length ∧ idx = text.length)) := by
  simp only [parseString] at h
  split at h
  case isTrue => exact Except.noConfusion h
  case isFalse he =>
    cases hP : stringScan s (windowsL s.length (text.drop (start + s.length))) false with
    | some i =>
      rw [hP] at h
      split at h
      case isTrue hc =>
        rw [Bool.and_eq_true, sliceOk_iff, sliceOk_iff] at hc
        simp only [Except.ok.injEq, Prod.mk.injEq] at h
        obtain ⟨h1, h2⟩ := h
        subst h2
        refine ⟨start + s.length + i, h1.symm, by omega, by omega, by omega,
          hc.1.2.1, Or.inl rfl⟩
      case isFalse => exact Except.noConfusion h
    | none =>
      rw [hP] at h
      split at h
      case isTrue hc =>
        rw [Bool.and_eq_true, sliceOk_iff, sliceOk_iff] at hc
        simp only [Except.ok.injEq, Prod.mk.injEq] at h
        obtain ⟨h1, h2⟩ := h
        subst h2
        exact ⟨text.length, h1.symm, by omega, hc.2.1, le_refl _, hc.1.2.1,
          Or.inr ⟨rfl, rfl⟩⟩
      case isFalse => exact Except.noConfusion h

theorem stringScan_found_eq {ruleEnd : List Nat} {ws : List (List Nat)}
    {skip : Bool} {i : Nat}
    (h : stringScan ruleEnd ws skip = some i) : ws.get? i = some ruleEnd := by
  induction ws generalizing skip i with
  | nil => simp [stringScan] at h
  | cons w ws ih =>
    rw [stringScan] at h
    by_cases hs : skip
    · rw [if_pos hs, Option.map_eq_some'] at h
      obtain ⟨i', hi', rfl⟩ := h
      simpa using ih hi'
    · rw [if_neg hs] at h
      by_cases hh : w.head? = some 92
      · rw [if_pos hh, Option.map_eq_some'] at h
        obtain ⟨i', hi', rfl⟩ := h
        simpa using ih hi'
      · rw [if_neg hh] at h
        by_cases he : (w == ruleEnd) = true
        · rw [if_pos he] at h
          cases h
          simp only [List.get?_cons_zero, Option.some.injEq]
          exact eq_of_beq he
        · rw [if_neg he, Option.map_eq_some'] at h
          obtain ⟨i', hi', rfl⟩ := h
          simpa using ih hi'

theorem parseString_ok_of {text : List Nat} {start : Nat} {s : List Nat}
    (hpre : s.isPrefixOf (text.drop start) = true)
    (hs : 0 < s.length) (hlen : start + s.length ≤ text.length)
    (hascii : ∀ b ∈ s, b < 128)
    (hP : noContAfterAscii text = true) :
    ∃ ev idx, parseString text start s = .ok (ev, idx) := by
  have hbytesS : ∀ j, j < s.length → text.get? (start + j) = s.get? j := by
    intro j hj
    have hg := get?_eq_of_isPrefixOf hpre hj
    rw [List.get?_drop] at hg
    exact hg
  have hcbStart : isCharBoundary text start = true :=
    boundary_of_head_byte hbytesS hs hascii
  have hcbAfter : isCharBoundary text (start + s.length) = true :=
    boundary_of_last_byte hbytesS hs hlen hascii hP
  cases hres : parseString text start s with
  | ok r =>
    obtain ⟨ev, idx⟩ := r
    exact ⟨ev, idx, rfl⟩
  | error u =>
    exfalso
    simp only [parseString] at hres
    split at hres
    case isTrue h0 => omega
    case isFalse h0 =>
      cases hPo : stringScan s (windowsL s.length (text.drop (start + s.length))) false with
      | some i =>
        rw [hPo] at hres
        dsimp only at hres
        split at hres
        case isTrue => exact Except.noConfusion hres
        case isFalse hc =>
          have hw := stringScan_found_eq hPo
          have hi : i < (windowsL s.length (text.drop (start + s.length))).length :=
            stringScan_lt_length hPo
          rw [windowsL_length, List.length_drop] at hi
          rw [windowsL_get? (by rw [List.length_drop]; omega)] at hw
          injection hw with hw
          have hbytesE : ∀ j, j < s.length →
              text.get? (start + s.length + i + j) = s.get? j := by
            intro j hj
            have hg := get?_eq_of_take_eq hw hj
            rw [List.get?_drop, List.get?_drop] at hg
            rw [show start + s.length + i + j = start + s.length + (i + j) by omega]
            exact hg
          have hcbBefore : isCharBoundary text (start + s.length + i) = true :=
            boundary_of_head_byte hbytesE hs hascii
          have hcbEnd : isCharBoundary text (start + s.length + i + s.length) = true :=
            boundary_of_last_byte hbytesE hs (by omega) hascii hP
          rw [Bool.and_eq_true, sliceOk_iff, sliceOk_iff] at hc
          exact hc ⟨⟨by omega, by omega, hcbStart, hcbEnd⟩, by omega, by omega,
            hcbAfter, hcbBefore⟩
      | none =>
        rw [hPo] at hres
        dsimp only at hres
        split at hres
        case isTrue => exact Except.noConfusion hres
        case isFalse hc =>
          rw [Bool.and_eq_true, sliceOk_iff, sliceOk_iff] at hc
          exact hc ⟨⟨by omega, le_refl _, hcbStart, isCharBoundary_length⟩,
            by omega, le_refl _, hcbAfter, isCharBoundary_length⟩


/-! ## Scanner-step (`next_event`) lemmas -/

theorem lineSafe_lineComment {rules : List SyntaxRule} {s : List Nat}
    (h : lineSafe rules = true) (hr : SyntaxRule.lineComment s ∈ rules) :
    (∀ b ∈ s, b ≠ 10) ∧ s.getLast? ≠ some 13 := by
  rw [lineSafe, List.all_eq_true] at h
  have hs := h _ hr
  dsimp only at hs
  rw [Bool.and_eq_true, List.all_eq_true] at hs
  constructor
  · intro b hb hcontra
    have := hs.1 b hb
    subst hcontra
    simp at this
  · have := hs.2
    rw [Bool.not_eq_true', beq_eq_false_iff_ne] at this
    exact this

theorem nextEvent_eq_scan {p : CommentParser} (h1 : p.index ≤ p.text.length)
    (h2 : p.maxRuleLen ≠ 0) :
    nextEvent p =
      match scanWindows p.rules (windowsL p.maxRuleLen (p.text.drop p.index)) with
      | none => .ok (none, p.text.length)
      | some (i, rule) =>
        (match rule with
          | .lineComment s => parseLineComment p.text (p.index + i) s
          | .blockComment s e => parseBlockComment p.text (p.index + i) s e
          | .string s => parseString p.text (p.index + i) s).map
          fun (evi : RawEvent × Nat) => (some evi.1, evi.2) := by
  unfold nextEvent
  rw [if_neg (by omega), if_neg h2]

theorem scan_some_facts {p : CommentParser} {j : Nat} {r : SyntaxRule}
    (h1 : p.index ≤ p.text.length)
    (hS : scanWindows p.rules (windowsL p.maxRuleLen (p.text.drop p.index)) = some (j, r)) :
    r ∈ p.rules ∧
      r.start.isPrefixOf ((p.text.drop (p.index + j)).take p.maxRuleLen) = true ∧
      p.index + j + p.maxRuleLen ≤ p.text.length := by
  obtain ⟨⟨w, hw, hfind⟩, _⟩ := scanWindows_eq_some hS
  have hj := scanWindows_lt_length hS
  rw [windowsL_length, List.length_drop] at hj
  rw [windowsL_get? (by rw [List.length_drop]; omega)] at hw
  rw [List.drop_drop] at hw
  injection hw with hw
  subst hw
  have hpref := List.find?_some hfind
  exact ⟨List.mem_of_find?_eq_some hfind, hpref, by omega⟩

theorem nextEvent_some_inv {p : CommentParser} {ev : RawEvent} {i' : Nat}
    (h : nextEvent p = .ok (some ev, i')) :
    p.index ≤ p.text.length ∧ p.maxRuleLen ≠ 0 ∧
      ∃ j r, scanWindows p.rules (windowsL p.maxRuleLen (p.text.drop p.index)) = some (j, r) ∧
        (match r with
          | .lineComment s => parseLineComment p.text (p.index + j) s
          | .blockComment s e => parseBlockComment p.text (p.index + j) s e
          | .string s => parseString p.text (p.index + j) s) = .ok (ev, i') := by
  unfold nextEvent at h
  split at h
  case isTrue => exact Except.noConfusion h
  case isFalse hlen =>
    split at h
    case isTrue => exact Except.noConfusion h
    case isFalse hmax =>
      refine ⟨by omega, hmax, ?_⟩
      cases hS : scanWindows p.rules (windowsL p.maxRuleLen (p.text.drop p.index)) with
      | none =>
        rw [hS] at h
        simp at h
      | some jr =>
        obtain ⟨j, r⟩ := jr
        rw [hS] at h
        dsimp only at h
        cases hres : (match r with
          | .lineComment s => parseLineComment p.text (p.index + j) s
          | .blockComment s e => parseBlockComment p.text (p.index + j) s e
          | .string s => parseString p.text (p.index + j) s) with
        | error u =>
          rw [hres] at h
          simp [Except.map] at h
        | ok ri =>
          obtain ⟨ev', idx'⟩ := ri
          rw [hres] at h
          simp only [Except.map, Except.ok.injEq, Prod.mk.injEq, Option.some.injEq] at h
          obtain ⟨rfl, rfl⟩ := h
          exact ⟨j, r, rfl, hres⟩

theorem nextEvent_ok_none {p : CommentParser} {i : Nat}
    (h : nextEvent p = .ok (none, i)) : i = p.text.length := by
  unfold nextEvent at h
  split at h
  case isTrue => exact Except.noConfusion h
  case isFalse hlen =>
    split at h
    case isTrue => exact Except.noConfusion h
    case isFalse hmax =>
      cases hS : scanWindows p.rules (windowsL p.maxRuleLen (p.text.drop p.index)) with
      | none =>
        rw [hS] at h
        simp only [Except.ok.injEq, Prod.mk.injEq] at h
        exact h.2.symm
      | some jr =>
        obtain ⟨j, r⟩ := jr
        rw [hS] at h
        dsimp only at h
        cases hres : (match r with
          | .lineComment s => parseLineComment p.text (p.index + j) s
          | .blockComment s e => parseBlockComment p.text (p.index + j) s e
          | .string s => parseString p.text (p.index + j) s) with
        | error u =>
          rw [hres] at h
          simp [Except.map] at h
        | ok ri =>
          rw [hres] at h
          simp [Except.map] at h

theorem nextEvent_ok_some {p : CommentParser} {ev : RawEvent} {i' : Nat}
    (h : nextEvent p = .ok (some ev, i')) :
    p.index < i' ∧ i' ≤ p.text.length := by
  obtain ⟨h1, h2, j, r, hS, hres⟩ := nextEvent_some_inv h
  obtain ⟨hmem, hpref, hbound⟩ := scan_some_facts h1 hS
  have hm : p.index + j < p.text.length := by omega
  cases r with
  | lineComment s =>
    obtain ⟨hev, hidx, hb1, hb2, hb3⟩ := parseLineComment_ok hres
    rcases findNextLineStart_findLineEnd_progress hm with hp | hp
    · subst hidx
      constructor
      · omega
      · exact findNextLineStart_le
    · subst hidx
      rw [hp]
      omega
  | blockComment s e =>
    obtain ⟨be, hev, hep, hb1, hb2, hb3, hcase⟩ := parseBlockComment_ok hres
    rcases hcase with hidx | ⟨hbe, hidx⟩ <;> omega
  | string s =>
    obtain ⟨be, hev, hsp, hb1, hb2, hb3, hcase⟩ := parseString_ok hres
    rcases hcase with hidx | ⟨hbe, hidx⟩ <;> omega

theorem nextEvent_total {p : CommentParser} (hp : Ready p) :
    ∃ r i', nextEvent p = .ok (r, i') := by
  obtain ⟨h1, hmax, hck, hne, hls, ha, hnc⟩ := hp
  have h2 : p.maxRuleLen ≠ 0 := by
    obtain ⟨r0, hr0⟩ := List.exists_mem_of_ne_nil p.rules hne
    have hp1 := checkRules_start_pos hck hr0
    have hp2 := maxRuleLen_ge hr0
    omega
  rw [nextEvent_eq_scan h1 h2]
  cases hS : scanWindows p.rules (windowsL p.maxRuleLen (p.text.drop p.index)) with
  | none => exact ⟨none, p.text.length, rfl⟩
  | some jr =>
    obtain ⟨j, r⟩ := jr
    obtain ⟨hmem, hpref, hbound⟩ := scan_some_facts h1 hS
    have hlen_s : r.start.length ≤ p.maxRuleLen := by
      rw [hmax]
      exact maxRuleLen_ge hmem
    have hsp : 0 < r.start.length := checkRules_start_pos hck hmem
    have hplen : (p.index + j) + r.start.length ≤ p.text.length := by omega
    have hprefB : r.start.isPrefixOf (p.text.drop (p.index + j)) = true := by
      rw [← isPrefixOf_take_eq hlen_s]
      exact hpref
    have hstartA := asciiRules_start ha hmem
    cases r with
    | lineComment s =>
      simp only [SyntaxRule.start] at hsp hprefB hplen hstartA
      obtain ⟨h10, h13⟩ := lineSafe_lineComment hls hmem
      obtain ⟨ev, idx, hok⟩ :=
        parseLineComment_ok_of hprefB hsp hplen h10 h13 hstartA hnc
      refine ⟨some ev, idx, ?_⟩
      dsimp only
      rw [hok]
      rfl
    | blockComment s e =>
      simp only [SyntaxRule.start] at hsp hprefB hplen hstartA
      have hep : 0 < e.length := checkRules_blockEnd_pos hck hmem
      have hendA := asciiRules_blockEnd ha hmem
      obtain ⟨ev, idx, hok⟩ :=
        parseBlockComment_ok_of hprefB hsp hep hplen hstartA hendA hnc
      refine ⟨some ev, idx, ?_⟩
      dsimp only
      rw [hok]
      rfl
    | string s =>
      simp only [SyntaxRule.start] at hsp hprefB hplen hstartA
      obtain ⟨ev, idx, hok⟩ := parseString_ok_of hprefB hsp hplen hstartA hnc
      refine ⟨some ev, idx, ?_⟩
      dsimp only
      rw [hok]
      rfl

theorem nextEvent_comment_spans {p : CommentParser} {ev : RawEvent} {i' : Nat}
    (h : nextEvent p = .ok (some ev, i'))
    (hck : SyntaxRule.checkRules p.rules = true) :
    ∀ e, ev.intoEvent = some e →
      p.index < e.textSpan.start ∧ e.textSpan.start ≤ e.textSpan.stop ∧
        e.textSpan.stop ≤ i' := by
  intro e he
  obtain ⟨h1, h2, j, r, hS, hres⟩ := nextEvent_some_inv h
  obtain ⟨hmem, hpref, hbound⟩ := scan_some_facts h1 hS
  have hsp : 0 < r.start.length := checkRules_start_pos hck hmem
  cases r with
  | lineComment s =>
    obtain ⟨hev, hidx, hb1, hb2, hb3⟩ := parseLineComment_ok hres
    subst hev
    simp only [RawEvent.intoEvent, Option.some.injEq] at he
    subst he
    simp only [Event.textSpan]
    have hstop : findLineEnd p.text (p.index + j) ≤ i' := by
      subst hidx
      rcases @findNextLineStart_progress p.text (findLineEnd p.text (p.index + j)) with hp | hp
      · omega
      · omega
    refine ⟨?_, hb2, hstop⟩
    have : 0 < s.length := hsp
    omega
  | blockComment s e' =>
    obtain ⟨be, hev, hep, hb1, hb2, hb3, hcase⟩ := parseBlockComment_ok hres
    subst hev
    simp only [RawEvent.intoEvent, Option.some.injEq] at he
    subst he
    simp only [Event.textSpan]
    have : 0 < s.length := hsp
    exact ⟨by omega, hb1, hb2⟩
  | string s =>
    obtain ⟨be, hev, hsp', hb1, hb2, hb3, hcase⟩ := parseString_ok hres
    subst hev
    simp only [RawEvent.intoEvent] at he
    exact Option.noConfusion he

/-! ## Iterator-level lemmas -/

theorem nextLoopF_ok_some {fuel : Nat} {p p' : CommentParser} {e : Event}
    (h : nextLoopF fuel p = .ok (some e, p')) :
    p.index < p'.index ∧ p'.index ≤ p.text.length ∧ p'.text = p.text ∧
      p'.rules = p.rules ∧ p'.maxRuleLen = p.maxRuleLen := by
  induction fuel generalizing p with
  | zero => exact Except.noConfusion h
  | succ fuel ih =>
    simp only [nextLoopF] at h
    cases hne : nextEvent p with
    | error u => rw [hne] at h; exact Except.noConfusion h
    | ok ri =>
      obtain ⟨r, i⟩ := ri
      rw [hne] at h
      cases r with
      | none =>
        dsimp only at h
        simp at h
      | some ev =>
        dsimp only at h
        cases hie : ev.intoEvent with
        | some e' =>
          rw [hie] at h
          dsimp only at h
          simp only [Except.ok.injEq, Prod.mk.injEq] at h
          obtain ⟨-, hp'⟩ := h
          subst hp'
          have hne' := nextEvent_ok_some hne
          exact ⟨hne'.1, hne'.2, rfl, rfl, rfl⟩
        | none =>
          rw [hie] at h
          dsimp only at h
          have hrec := ih h
          have hne' := nextEvent_ok_some hne
          refine ⟨?_, ?_, hrec.2.2.1, hrec.2.2.2.1, hrec.2.2.2.2⟩
          · have hgt : i < p'.index := hrec.1
            omega
          · have hle : p'.index ≤ p.text.length := hrec.2.1
            exact hle

theorem nextLoopF_ok_none {fuel : Nat} {p p' : CommentParser}
    (h : nextLoopF fuel p = .ok (none, p')) :
    p'.index = p.text.length ∧ p'.text = p.text ∧
      p'.rules = p.rules ∧ p'.maxRuleLen = p.maxRuleLen := by
  induction fuel generalizing p with
  | zero => exact Except.noConfusion h
  | succ fuel ih =>
    simp only [nextLoopF] at h
    cases hne : nextEvent p with
    | error u => rw [hne] at h; exact Except.noConfusion h
    | ok ri =>
      obtain ⟨r, i⟩ := ri
      rw [hne] at h
      cases r with
      | none =>
        dsimp only at h
        simp only [Except.ok.injEq, Prod.mk.injEq] at h
        obtain ⟨-, hp'⟩ := h
        subst hp'
        exact ⟨nextEvent_ok_none hne, rfl, rfl, rfl⟩
      | some ev =>
        dsimp only at h
        cases hie : ev.intoEvent with
        | some e' =>
          rw [hie] at h
          dsimp only at h
          simp at h
        | none =>
          rw [hie] at h
          dsimp only at h
          have hrec := ih h
          exact hrec

theorem nextLoopF_total {fuel : Nat} {p : CommentParser} (hp : Ready p)
    (hfuel : p.text.length + 1 - p.index ≤ fuel) :
    ∃ r, nextLoopF fuel p = .ok r := by
  induction fuel generalizing p with
  | zero =>
    exfalso
    obtain ⟨h1, -⟩ := hp
    omega
  | succ fuel ih =>
    obtain ⟨r, i, hne⟩ := nextEvent_total hp
    simp only [nextLoopF]
    rw [hne]
    cases r with
    | none => exact ⟨(none, { p with index := i }), rfl⟩
    | some ev =>
      cases hie : ev.intoEvent with
      | some e =>
        dsimp only
        rw [hie]
        exact ⟨(some e, { p with index := i }), rfl⟩
      | none =>
        dsimp only
        rw [hie]
        have hlt := nextEvent_ok_some hne
        have hready : Ready { p with index := i } := by
          obtain ⟨h1, h2, h3, h4, h5, h6, h7⟩ := hp
          exact ⟨hlt.2, h2, h3, h4, h5, h6, h7⟩
        refine ih hready ?_
        show p.text.length + 1 - i ≤ fuel
        have := hlt.1
        have := hlt.2
        omega

theorem next_ok_some {p p' : CommentParser} {e : Event}
    (h : CommentParser.next p = .ok (some e, p')) :
    p.index < p'.index ∧ p'.index ≤ p.text.length ∧ p'.text = p.text ∧
      p'.rules = p.rules ∧ p'.maxRuleLen = p.maxRuleLen := by
  unfold CommentParser.next at h
  split at h
  · simp at h
  · exact nextLoopF_ok_some h

theorem next_ok_none {p p' : CommentParser}
    (h : CommentParser.next p = .ok (none, p')) :
    p'.index = p'.text.length ∧ p'.text = p.text ∧
      p'.rules = p.rules ∧ p'.maxRuleLen = p.maxRuleLen := by
  unfold CommentParser.next at h
  split at h
  case isTrue hc =>
    simp only [Except.ok.injEq, Prod.mk.injEq] at h
    obtain ⟨-, hp'⟩ := h
    subst hp'
    exact ⟨hc, rfl, rfl, rfl⟩
  case isFalse hc =>
    obtain ⟨h1, h2, h3, h4⟩ := nextLoopF_ok_none h
    refine ⟨?_, h2, h3, h4⟩
    rw [h2]
    exact h1

theorem next_at_end {p : CommentParser} (h : p.index = p.text.length) :
    CommentParser.next p = .ok (none, p) := by
  unfold CommentParser.next
  rw [if_pos h]

theorem next_none_fused {p p' : CommentParser}
    (h : CommentParser.next p = .ok (none, p')) :
    CommentParser.next p' = .ok (none, p') :=
  next_at_end (next_ok_none h).1

theorem next_total {p : CommentParser} (hp : Ready p) :
    ∃ r, CommentParser.next p = .ok r := by
  unfold CommentParser.next
  split
  · exact ⟨(none, p), rfl⟩
  · exact nextLoopF_total hp (le_refl _)

theorem next_preserves_Ready {p p' : CommentParser} {r : Option Event}
    (hp : Ready p) (h : CommentParser.next p = .ok (r, p')) : Ready p' := by
  obtain ⟨h1, h2, h3, h4, h5, h6, h7⟩ := hp
  cases r with
  | some e =>
    obtain ⟨hlt, hle, ht, hr, hm⟩ := next_ok_some h
    refine ⟨by rw [ht]; exact hle, by rw [hm, hr]; exact h2,
      by rw [hr]; exact h3, by rw [hr]; exact h4, by rw [hr]; exact h5,
      by rw [hr]; exact h6, by rw [ht]; exact h7⟩
  | none =>
    obtain ⟨hi, ht, hr, hm⟩ := next_ok_none h
    refine ⟨by omega, by rw [hm, hr]; exact h2,
      by rw [hr]; exact h3, by rw [hr]; exact h4, by rw [hr]; exact h5,
      by rw [hr]; exact h6, by rw [ht]; exact h7⟩

theorem nextLoopF_comment_spans {fuel : Nat} {p p' : CommentParser} {e : Event}
    (h : nextLoopF fuel p = .ok (some e, p'))
    (hck : SyntaxRule.checkRules p.rules = true) :
    p.index < e.textSpan.start ∧ e.textSpan.start ≤ e.textSpan.stop ∧
      e.textSpan.stop ≤ p'.index := by
  induction fuel generalizing p with
  | zero => exact Except.noConfusion h
  | succ fuel ih =>
    simp only [nextLoopF] at h
    cases hne : nextEvent p with
    | error u => rw [hne] at h; exact Except.noConfusion h
    | ok ri =>
      obtain ⟨r, i⟩ := ri
      rw [hne] at h
      cases r with
      | none =>
        dsimp only at h
        simp at h
      | some ev =>
        dsimp only at h
        cases hie : ev.intoEvent with
        | some e' =>
          rw [hie] at h
          dsimp only at h
          simp only [Except.ok.injEq, Prod.mk.injEq, Option.some.injEq] at h
          obtain ⟨he, hp'⟩ := h
          subst he
          subst hp'
          exact nextEvent_comment_spans hne hck e' hie
        | none =>
          rw [hie] at h
          dsimp only at h
          have hrec := ih h hck
          have hne' := nextEvent_ok_some hne
          refine ⟨?_, hrec.2.1, hrec.2.2⟩
          have hgt : i < e.textSpan.start := hrec.1
          have hgt2 : p.index < i := hne'.1
          omega

theorem next_comment_spans {p p' : CommentParser} {e : Event}
    (h : CommentParser.next p = .ok (some e, p'))
    (hck : SyntaxRule.checkRules p.rules = true) :
    p.index < e.textSpan.start ∧ e.textSpan.start ≤ e.textSpan.stop ∧
      e.textSpan.stop ≤ p'.index := by
  unfold CommentParser.next at h
  split at h
  · simp at h
  · exact nextLoopF_comment_spans h hck

theorem runF_total {fuel : Nat} {p : CommentParser} (hp : Ready p)
    (hfuel : p.text.length + 1 - p.index ≤ fuel) :
    ∃ evs, runF fuel p = .ok evs := by
  induction fuel generalizing p with
  | zero =>
    exfalso
    obtain ⟨h1, -⟩ := hp
    omega
  | succ fuel ih =>
    obtain ⟨⟨r, p'⟩, hn⟩ := next_total hp
    simp only [runF]
    rw [hn]
    cases r with
    | none => exact ⟨[], rfl⟩
    | some e =>
      have hr' : Ready p' := next_preserves_Ready hp hn
      obtain ⟨hlt, hle, ht, -, -⟩ := next_ok_some hn
      obtain ⟨evs, he⟩ := ih hr' (by rw [ht]; omega)
      refine ⟨e :: evs, ?_⟩
      dsimp only
      rw [he]
      rfl

theorem runF_spans {fuel : Nat} {p : CommentParser} {evs : List Event}
    (hck : SyntaxRule.checkRules p.rules = true)
    (h : runF fuel p = .ok evs) :
    (∀ e ∈ evs, p.index < e.textSpan.start ∧ e.textSpan.start ≤ e.textSpan.stop) ∧
      List.Pairwise (fun a b => a.textSpan.stop ≤ b.textSpan.start ∧
        a.textSpan.start < b.textSpan.start) evs := by
  induction fuel generalizing p evs with
  | zero => exact Except.noConfusion h
  | succ fuel ih =>
    simp only [runF] at h
    cases hn : CommentParser.next p with
    | error u => rw [hn] at h; exact Except.noConfusion h
    | ok rp =>
      obtain ⟨r, p'⟩ := rp
      rw [hn] at h
      cases r with
      | none =>
        dsimp only at h
        simp only [Except.ok.injEq] at h
        subst h
        exact ⟨fun e he => absurd he (List.not_mem_nil e), List.Pairwise.nil⟩
      | some e =>
        dsimp only at h
        cases hrun : runF fuel p' with
        | error u => rw [hrun] at h; simp [Except.map] at h
        | ok evs' =>
          rw [hrun] at h
          simp only [Except.map, Except.ok.injEq] at h
          subst h
          have hckp' : SyntaxRule.checkRules p'.rules = true := by
            rw [(next_ok_some hn).2.2.2.1]
            exact hck
          obtain ⟨hall', hpair'⟩ := ih hckp' hrun
          have hspan := next_comment_spans hn hck
          have hlt := next_ok_some hn
          constructor
          · intro e' he'
            rcases List.mem_cons.mp he' with rfl | hmem
            · exact ⟨hspan.1, hspan.2.1⟩
            · have := (hall' e' hmem).1
              refine ⟨?_, (hall' e' hmem).2⟩
              have := hlt.1
              omega
          · refine List.Pairwise.cons ?_ hpair'
            intro e' hmem
            have h1 := (hall' e' hmem).1
            have h2 := hspan.2.2
            have h3 := hspan.2.1
            have h4 := hspan.1
            exact ⟨by omega, by omega⟩

theorem advanceN_reaches_end {n : Nat} {p : CommentParser} (hp : Ready p)
    (hn : p.text.length - p.index ≤ n) :
    ∃ q, advanceN n p = .ok q ∧ q.text = p.text ∧ q.index = q.text.length ∧
      Ready q := by
  induction n generalizing p with
  | zero =>
    have h1 := hp.1
    exact ⟨p, rfl, rfl, by omega, hp⟩
  | succ n ih =>
    obtain ⟨⟨r, p'⟩, hnx⟩ := next_total hp
    have hr' := next_preserves_Ready hp hnx
    simp only [advanceN]
    rw [hnx]
    cases r with
    | none =>
      obtain ⟨hi, ht, -, -⟩ := next_ok_none hnx
      obtain ⟨q, hq1, hq2, hq3, hq4⟩ := ih hr' (by omega)
      exact ⟨q, hq1, by rw [hq2, ht], hq3, hq4⟩
    | some e =>
      obtain ⟨hlt, hle, ht, -, -⟩ := next_ok_some hnx
      obtain ⟨q, hq1, hq2, hq3, hq4⟩ := ih hr' (by rw [ht]; omega)
      exact ⟨q, hq1, by rw [hq2, ht], hq3, hq4⟩

/-! ## Further bridging lemmas -/

theorem isPrefixOf_of_take {s l : List Nat} {n : Nat}
    (h : s.isPrefixOf (l.take n) = true) : s.isPrefixOf l = true := by
  obtain ⟨t, ht⟩ := isPrefixOf_eq_true_iff.mp h
  refine isPrefixOf_eq_true_iff.mpr ⟨t ++ l.drop n, ?_⟩
  rw [← List.append_assoc, ht, List.take_append_drop]

theorem occursIn_of_isPrefixOf_drop {e l : List Nat} {j : Nat} (hj : j ≤ l.length)
    (h : e.isPrefixOf (l.drop j) = true) : occursIn e l = true := by
  unfold occursIn
  rw [List.any_eq_true]
  exact ⟨j, List.mem_range.mpr (by omega), h⟩

theorem windowMem_abs {p : CommentParser} {i : Nat}
    (h1 : p.index ≤ p.text.length) (hi1 : p.index ≤ i)
    (hi2 : i + p.maxRuleLen ≤ p.text.length) :
    (windowsL p.maxRuleLen (p.text.drop p.index)).get? (i - p.index) =
      some ((p.text.drop i).take p.maxRuleLen) := by
  rw [windowsL_get? (by rw [List.length_drop]; omega), List.drop_drop]
  have heq : p.index + (i - p.index) = i := by omega
  rw [heq]

/-- A UTF-8-fragment delimiter panics the scanner even though the rule
set passes validation, is non-empty, is line-safe, and the slice bounds
are ordered: with rule `String [0xC3]` and the buffer `"é"`
(bytes `0xC3 0xA9`), `parse_string` takes `&text[1..2]` whose start is
not a char boundary.  This is why the panic-freedom statements below
additionally require ASCII delimiters. -/
theorem next_panics_on_utf8_fragment_delimiter :
    SyntaxRule.checkRules [SyntaxRule.string [195]] = true ∧
    lineSafe [SyntaxRule.string [195]] = true ∧
    noContAfterAscii [195, 169] = true ∧
    CommentParser.new [195, 169] [.string [195]] =
      some ⟨[195, 169], 0, [.string [195]], 1⟩ ∧
    CommentParser.next ⟨[195, 169], 0, [.string [195]], 1⟩ = .error () := by
  refine ⟨by decide, by decide, by decide, by decide, by decide⟩

/-! ## Claim theorems -/

/-- C1 (counterexample): with the rule set
`[LineComment "//!", LineComment "//"]` (so `maxStartLength = 3`) and the
buffer `"a//"`, the start sequence `"//"` of the second rule occurs fully
inside the buffer at offset 1 (`1 + 2 ≤ 3`), yet the matching cycle
reports no further match and sets the cursor to the buffer length, and
the whole scan yields no event: an occurrence beginning fewer than
`maxStartLength` bytes before the end of the buffer is never examined,
contradicting the claim. -/
theorem C1_counterexample_tail_window_missed :
    CommentParser.new [97, 47, 47]
        [.lineComment [47, 47, 33], .lineComment [47, 47]] =
      some ⟨[97, 47, 47], 0, [.lineComment [47, 47, 33], .lineComment [47, 47]], 3⟩ ∧
    SyntaxRule.lineComment [47, 47] ∈
      [SyntaxRule.lineComment [47, 47, 33], SyntaxRule.lineComment [47, 47]] ∧
    [47, 47].isPrefixOf (([97, 47, 47] : List Nat).drop 1) = true ∧
    1 + 2 ≤ ([97, 47, 47] : List Nat).length ∧
    nextEvent ⟨[97, 47, 47], 0, [.lineComment [47, 47, 33], .lineComment [47, 47]], 3⟩ =
      .ok (none, 3) ∧
    CommentParser.run ⟨[97, 47, 47], 0, [.lineComment [47, 47, 33], .lineComment [47, 47]], 3⟩ =
      .ok [] := by
  refine ⟨by decide, by decide, by decide, by decide, by decide, by decide⟩

/-- C1 (amended): a matching cycle examines exactly the offsets `i ≥ C`
with `i + maxStartLength ≤ length` (the full windows); among those it
selects the earliest offset at which some rule's start sequence is a
prefix of the buffer, binding the first such rule in rule-set order, and
it reports no further match (setting the cursor to the buffer length)
precisely when no such full-window offset matches.  Start sequences that
occur only at offsets beginning fewer than `maxStartLength` bytes before
the end of the buffer are not found. -/
theorem C1_amended_scan_examines_full_windows (p : CommentParser)
    (h1 : p.index ≤ p.text.length) (h2 : p.maxRuleLen ≠ 0)
    (hb : ∀ r ∈ p.rules, r.start.length ≤ p.maxRuleLen) :
    (scanWindows p.rules (windowsL p.maxRuleLen (p.text.drop p.index)) = none →
      nextEvent p = .ok (none, p.text.length) ∧
      ∀ i r, p.index ≤ i → i + p.maxRuleLen ≤ p.text.length → r ∈ p.rules →
        r.start.isPrefixOf (p.text.drop i) = false) ∧
    ((∃ i r, p.index ≤ i ∧ i + p.maxRuleLen ≤ p.text.length ∧ r ∈ p.rules ∧
        r.start.isPrefixOf (p.text.drop i) = true) →
      scanWindows p.rules (windowsL p.maxRuleLen (p.text.drop p.index)) ≠ none) ∧
    (∀ j r, scanWindows p.rules (windowsL p.maxRuleLen (p.text.drop p.index)) = some (j, r) →
      r ∈ p.rules ∧
      r.start.isPrefixOf (p.text.drop (p.index + j)) = true ∧
      p.index + j + p.maxRuleLen ≤ p.text.length ∧
      (∀ i r', p.index ≤ i → i < p.index + j → i + p.maxRuleLen ≤ p.text.length →
        r' ∈ p.rules → r'.start.isPrefixOf (p.text.drop i) = false) ∧
      (∃ n, p.rules.get? n = some r ∧
        ∀ m r', m < n → p.rules.get? m = some r' →
          r'.start.isPrefixOf (p.text.drop (p.index + j)) = false)) := by
  have hnone_no : scanWindows p.rules (windowsL p.maxRuleLen (p.text.drop p.index)) = none →
      ∀ i r, p.index ≤ i → i + p.maxRuleLen ≤ p.text.length → r ∈ p.rules →
        r.start.isPrefixOf (p.text.drop i) = false := by
    intro hS i r hi1 hi2 hr
    have hall := scanWindows_eq_none_iff.mp hS
    have hw := windowMem_abs h1 hi1 hi2
    have hfind := hall _ (List.get?_mem hw)
    rw [List.find?_eq_none] at hfind
    have hpred := hfind r hr
    rw [← isPrefixOf_take_eq (hb r hr)]
    exact Bool.eq_false_iff.mpr (by simpa using hpred)
  refine ⟨?_, ?_, ?_⟩
  · intro hS
    refine ⟨?_, hnone_no hS⟩
    rw [nextEvent_eq_scan h1 h2, hS]
  · rintro ⟨i, r, hi1, hi2, hr, hp⟩ hS
    have hcontra := hnone_no hS i r hi1 hi2 hr
    rw [hp] at hcontra
    exact Bool.noConfusion hcontra
  · intro j r hS
    obtain ⟨hmem, hprefT, hbound⟩ := scan_some_facts h1 hS
    obtain ⟨⟨w, hwget, hfind⟩, hbefore⟩ := scanWindows_eq_some hS
    refine ⟨hmem, isPrefixOf_of_take hprefT, hbound, ?_, ?_⟩
    · intro i r' hi1 hi2 hi3 hr'
      have hw := windowMem_abs h1 hi1 hi3
      have hfnone := hbefore (i - p.index) _ (by omega) hw
      rw [List.find?_eq_none] at hfnone
      have hpred := hfnone r' hr'
      rw [← isPrefixOf_take_eq (hb r' hr')]
      exact Bool.eq_false_iff.mpr (by simpa using hpred)
    · obtain ⟨n, hn1, hn2, hn3⟩ := find?_eq_some_first hfind
      have hw := windowMem_abs h1 (by omega : p.index ≤ p.index + j) (by omega)
      rw [show p.index + j - p.index = j by omega] at hw
      rw [hwget] at hw
      injection hw with hw
      refine ⟨n, hn1, ?_⟩
      intro m r' hm hget
      have hpred := hn3 m hm r' hget
      rw [← isPrefixOf_take_eq (hb r' (List.get?_mem hget))]
      rw [← hw]
      simpa using hpred

/-- C1 (amended, witness): the amended scan characterization applied to
the concrete scanner over `"x//y"` with the single rule
`LineComment "//"`, whose scan selects offset 1. -/
theorem C1_amended_scan_examines_full_windows_witness :
    SyntaxRule.lineComment [47, 47] ∈ ([SyntaxRule.lineComment [47, 47]] : List SyntaxRule) ∧
    ([47, 47] : List Nat).isPrefixOf (([120, 47, 47, 121] : List Nat).drop (0 + 1)) = true := by
  have h := C1_amended_scan_examines_full_windows
    ⟨[120, 47, 47, 121], 0, [.lineComment [47, 47]], 2⟩
    (by decide) (by decide) (by decide)
  have h3 := h.2.2 1 (SyntaxRule.lineComment [47, 47]) (by decide)
  exact ⟨h3.1, h3.2.1⟩

/-- C2 (counterexample): the empty rule set passes validation, so
construction succeeds, yet the very first pull on a non-empty buffer
panics (the `windows(0)` assertion), contradicting the claim that pulls
never crash for every rule set that passes validation. -/
theorem C2_counterexample_empty_rule_list_panics :
    SyntaxRule.checkRules [] = true ∧
    CommentParser.new [97] [] = some ⟨[97], 0, [], 0⟩ ∧
    CommentParser.next ⟨[97], 0, [], 0⟩ = .error () := by
  refine ⟨by decide, by decide, by decide⟩

/-- C2 (amended): for every rule set that passes validation, contains at
least one rule, has ASCII delimiter sequences, and whose line-comment
start sequences contain no line-feed byte and do not end with a
carriage-return byte, and for every buffer in which a UTF-8 continuation
byte never directly follows an ASCII byte (true of every valid UTF-8
buffer, i.e. of every Rust `&str`), construction succeeds and pulling
every event never crashes. -/
theorem C2_amended_no_panic_for_nonempty_safe_rules (text : List Nat)
    (rules : List SyntaxRule) (hck : SyntaxRule.checkRules rules = true)
    (hne : rules ≠ []) (hls : lineSafe rules = true)
    (ha : asciiRules rules = true) (hnc : noContAfterAscii text = true) :
    ∃ p₀ evs, CommentParser.new text rules = some p₀ ∧
      CommentParser.run p₀ = .ok evs := by
  have hr : Ready ⟨text, 0, rules, SyntaxRule.maxRuleLen rules⟩ :=
    ⟨Nat.zero_le _, rfl, hck, hne, hls, ha, hnc⟩
  obtain ⟨evs, he⟩ := runF_total hr (le_refl _)
  refine ⟨⟨text, 0, rules, SyntaxRule.maxRuleLen rules⟩, evs, ?_, he⟩
  unfold CommentParser.new
  rw [if_pos hck]

/-- C2 (amended, witness): the amended statement at the buffer `"//x"`
with the single rule `LineComment "//"`. -/
theorem C2_amended_no_panic_witness :
    ∃ p₀ evs, CommentParser.new [47, 47, 120] [SyntaxRule.lineComment [47, 47]] = some p₀ ∧
      CommentParser.run p₀ = .ok evs :=
  C2_amended_no_panic_for_nonempty_safe_rules [47, 47, 120]
    [.lineComment [47, 47]] (by decide) (by decide) (by decide) (by decide) (by decide)

/-- C3 (counterexample): with rules
`[BlockComment "/*" "*/", LineComment "//"]` and buffer
`"x /* a */ // b"`, the scan emits the block comment with raw span
`[2, 9)` and then the line comment whose raw span is the whole line
`[0, 14)`: the second raw span starts before the first (`0 < 2`) and the
two spans overlap, contradicting both parts of the claim. -/
theorem C3_counterexample_line_raw_span_overlaps :
    CommentParser.new [120, 32, 47, 42, 32, 97, 32, 42, 47, 32, 47, 47, 32, 98]
        [.blockComment [47, 42] [42, 47], .lineComment [47, 47]] =
      some ⟨[120, 32, 47, 42, 32, 97, 32, 42, 47, 32, 47, 47, 32, 98], 0,
        [.blockComment [47, 42] [42, 47], .lineComment [47, 47]], 2⟩ ∧
    CommentParser.run ⟨[120, 32, 47, 42, 32, 97, 32, 42, 47, 32, 47, 47, 32, 98], 0,
        [.blockComment [47, 42] [42, 47], .lineComment [47, 47]], 2⟩ =
      .ok [.blockComment ⟨2, 9⟩ ⟨4, 7⟩, .lineComment ⟨0, 14⟩ ⟨12, 14⟩] ∧
    (Event.rawSpan (.lineComment ⟨0, 14⟩ ⟨12, 14⟩)).start <
      (Event.rawSpan (.blockComment ⟨2, 9⟩ ⟨4, 7⟩)).start ∧
    ¬((Event.rawSpan (.blockComment ⟨2, 9⟩ ⟨4, 7⟩)).stop ≤
        (Event.rawSpan (.lineComment ⟨0, 14⟩ ⟨12, 14⟩)).start ∨
      (Event.rawSpan (.lineComment ⟨0, 14⟩ ⟨12, 14⟩)).stop ≤
        (Event.rawSpan (.blockComment ⟨2, 9⟩ ⟨4, 7⟩)).start) := by
  refine ⟨by decide, by decide, by decide, by decide⟩

/-- C3 (amended): for every rule set passing validation and every
buffer, the sequence of emitted `text` spans is strictly increasing in
start offset and mutually non-overlapping; the `raw` spans need not be,
because a line comment's raw span covers its whole physical line and may
reach back over an earlier event emitted on the same line. -/
theorem C3_amended_text_spans_ordered (p : CommentParser) (evs : List Event)
    (hck : SyntaxRule.checkRules p.rules = true)
    (h : CommentParser.run p = .ok evs) :
    List.Pairwise (fun a b => a.textSpan.stop ≤ b.textSpan.start ∧
      a.textSpan.start < b.textSpan.start) evs := by
  unfold CommentParser.run at h
  exact (runF_spans hck h).2

/-- C3 (amended, witness): the amended ordering property at the buffer
`"//a\n//b"` with the single rule `LineComment "//"`, whose scan emits
two line comments. -/
theorem C3_amended_text_spans_ordered_witness :
    List.Pairwise (fun a b : Event => a.textSpan.stop ≤ b.textSpan.start ∧
      a.textSpan.start < b.textSpan.start)
      [.lineComment ⟨0, 3⟩ ⟨2, 3⟩, .lineComment ⟨4, 7⟩ ⟨6, 7⟩] :=
  C3_amended_text_spans_ordered
    ⟨[47, 47, 97, 10, 47, 47, 98], 0, [.lineComment [47, 47]], 2⟩
    [.lineComment ⟨0, 3⟩ ⟨2, 3⟩, .lineComment ⟨4, 7⟩ ⟨6, 7⟩]
    (by decide) (by decide)

/-- C4: string regions are consumed and never surfaced: every internal
string event is discarded by `into_event`; with rules
`[LineComment "//!", StringLiteral quote]` the buffer `"foo //! bar"`
(quotes included) yields zero comment events; with rules
`[StringLiteral quote, LineComment "//"]` the buffer
`"a\"b" // trailing` (an escaped quote inside the string) yields exactly
one line comment whose text is `" trailing"`. -/
theorem C4_string_regions_consumed_never_surfaced :
    (∀ raw text_, RawEvent.intoEvent (.string raw text_) = none) ∧
    (CommentParser.new [34, 102, 111, 111, 32, 47, 47, 33, 32, 98, 97, 114, 34]
        [.lineComment [47, 47, 33], .string [34]] =
      some ⟨[34, 102, 111, 111, 32, 47, 47, 33, 32, 98, 97, 114, 34], 0,
        [.lineComment [47, 47, 33], .string [34]], 3⟩ ∧
      CommentParser.run ⟨[34, 102, 111, 111, 32, 47, 47, 33, 32, 98, 97, 114, 34], 0,
        [.lineComment [47, 47, 33], .string [34]], 3⟩ = .ok []) ∧
    (CommentParser.new
        [34, 97, 92, 34, 98, 34, 32, 47, 47, 32, 116, 114, 97, 105, 108, 105, 110, 103]
        [.string [34], .lineComment [47, 47]] =
      some ⟨[34, 97, 92, 34, 98, 34, 32, 47, 47, 32, 116, 114, 97, 105, 108, 105, 110, 103],
        0, [.string [34], .lineComment [47, 47]], 2⟩ ∧
      CommentParser.run
        ⟨[34, 97, 92, 34, 98, 34, 32, 47, 47, 32, 116, 114, 97, 105, 108, 105, 110, 103],
          0, [.string [34], .lineComment [47, 47]], 2⟩ =
        .ok [.lineComment ⟨0, 18⟩ ⟨9, 18⟩] ∧
      slice [34, 97, 92, 34, 98, 34, 32, 47, 47, 32, 116, 114, 97, 105, 108, 105, 110, 103]
        9 18 = [32, 116, 114, 97, 105, 108, 105, 110, 103]) := by
  refine ⟨fun raw text_ => rfl, ⟨by decide, by decide⟩, by decide, by decide, by decide⟩

/-- C6: a matched block-comment rule whose end sequence does not occur
after the start delimiter still produces an event — never an error —
with raw and text both running to end-of-buffer; and concretely, rules
`[BlockComment "/*" "*/"]` on `"/* never closed"` yield exactly one
block comment whose text is `" never closed"`, followed by end of
input. -/
theorem C6_unterminated_block_comment_recovered (text : List Nat) (start : Nat)
    (s e : List Nat) (he : 0 < e.length) (hlen : start + s.length ≤ text.length)
    (hbs : isCharBoundary text start = true)
    (hba : isCharBoundary text (start + s.length) = true)
    (hno : occursIn e (text.drop (start + s.length)) = false) :
    parseBlockComment text start s e =
      .ok (.blockComment ⟨start, text.length⟩ ⟨start + s.length, text.length⟩,
        text.length) ∧
    CommentParser.run ⟨[47, 42, 32, 110, 101, 118, 101, 114, 32, 99, 108, 111, 115, 101, 100],
        0, [.blockComment [47, 42] [42, 47]], 2⟩ =
      .ok [.blockComment ⟨0, 15⟩ ⟨2, 15⟩] ∧
    slice [47, 42, 32, 110, 101, 118, 101, 114, 32, 99, 108, 111, 115, 101, 100] 2 15 =
      [32, 110, 101, 118, 101, 114, 32, 99, 108, 111, 115, 101, 100] := by
  refine ⟨?_, by decide, by decide⟩
  cases hP : position (fun w => w == e)
      (windowsL e.length (text.drop (start + s.length))) with
  | some i =>
    exfalso
    obtain ⟨⟨w, hw, hpw⟩, -⟩ := position_eq_some hP
    have hi : i < (windowsL e.length (text.drop (start + s.length))).length := by
      by_contra hge
      rw [List.get?_eq_none.mpr (by omega)] at hw
      exact Option.noConfusion hw
    rw [windowsL_length] at hi
    rw [windowsL_get? hi] at hw
    injection hw with hw
    have hweq : w = e := by simpa using hpw
    have hwe : ((text.drop (start + s.length)).drop i).take e.length = e := by
      rw [hw]
      exact hweq
    have hpref : e.isPrefixOf ((text.drop (start + s.length)).drop i) = true := by
      refine isPrefixOf_eq_true_iff.mpr
        ⟨((text.drop (start + s.length)).drop i).drop e.length, ?_⟩
      calc e ++ ((text.drop (start + s.length)).drop i).drop e.length
          = ((text.drop (start + s.length)).drop i).take e.length ++
            ((text.drop (start + s.length)).drop i).drop e.length := by rw [hwe]
        _ = (text.drop (start + s.length)).drop i := List.take_append_drop _ _
    have := occursIn_of_isPrefixOf_drop
      (by rw [List.length_drop] at hi ⊢; omega) hpref
    rw [hno] at this
    exact Bool.noConfusion this
  | none =>
    simp only [parseBlockComment]
    rw [if_neg (by omega), hP]
    dsimp only
    split
    case isTrue => rfl
    case isFalse hc =>
      exfalso
      rw [Bool.and_eq_true, sliceOk_iff, sliceOk_iff] at hc
      exact hc ⟨⟨by omega, le_refl _, hbs, isCharBoundary_length⟩,
        by omega, le_refl _, hba, isCharBoundary_length⟩

/-- C6 (witness): the unterminated-block recovery applied at the
concrete buffer `"/* never closed"` with start delimiter `"/*"` and end
delimiter `"*/"` matched at offset 0. -/
theorem C6_unterminated_block_comment_recovered_witness :
    parseBlockComment [47, 42, 32, 110, 101, 118, 101, 114, 32, 99, 108, 111, 115, 101, 100]
        0 [47, 42] [42, 47] =
      .ok (.blockComment ⟨0, 15⟩ ⟨2, 15⟩, 15) := by
  have h := C6_unterminated_block_comment_recovered
    [47, 42, 32, 110, 101, 118, 101, 114, 32, 99, 108, 111, 115, 101, 100]
    0 [47, 42] [42, 47] (by decide) (by decide) (by decide) (by decide) (by decide)
  exact h.1

/-- C7: when several rules' start sequences match at the selected
offset, the first rule in rule-set order wins: with rules
`[LineComment "//!", LineComment "//"]` and buffer `"//! x"`, the scan
binds the `"//!"` rule at offset 0 and emits exactly one line comment
whose text is `" x"`. -/
theorem C7_precedence_by_declaration_order :
    CommentParser.new [47, 47, 33, 32, 120]
        [.lineComment [47, 47, 33], .lineComment [47, 47]] =
      some ⟨[47, 47, 33, 32, 120], 0,
        [.lineComment [47, 47, 33], .lineComment [47, 47]], 3⟩ ∧
    scanWindows [.lineComment [47, 47, 33], .lineComment [47, 47]]
        (windowsL 3 (([47, 47, 33, 32, 120] : List Nat).drop 0)) =
      some (0, .lineComment [47, 47, 33]) ∧
    CommentParser.run ⟨[47, 47, 33, 32, 120], 0,
        [.lineComment [47, 47, 33], .lineComment [47, 47]], 3⟩ =
      .ok [.lineComment ⟨0, 5⟩ ⟨3, 5⟩] ∧
    slice [47, 47, 33, 32, 120] 3 5 = [32, 120] := by
  refine ⟨by decide, by decide, by decide, by decide⟩

/-- C8: construction fails iff the rule set contains an empty delimiter
sequence: `new` succeeds exactly when `check_rules` holds, and
`check_rules` is false exactly when some rule has an empty delimiter;
in particular all-non-empty rule sets construct successfully. -/
theorem C8_construction_fails_iff_empty_delimiter (text : List Nat)
    (rules : List SyntaxRule) :
    ((CommentParser.new text rules).isSome = SyntaxRule.checkRules rules) ∧
    (SyntaxRule.checkRules rules = false ↔ ∃ r ∈ rules, hasEmptyDelimiter r) ∧
    ((∀ r ∈ rules, ¬hasEmptyDelimiter r) →
      ∃ p₀, CommentParser.new text rules = some p₀) := by
  have hiff : SyntaxRule.checkRules rules = false ↔ ∃ r ∈ rules, hasEmptyDelimiter r := by
    rw [SyntaxRule.checkRules, Bool.not_eq_false', List.any_eq_true]
    constructor
    · rintro ⟨r, hr, hpred⟩
      refine ⟨r, hr, ?_⟩
      cases r with
      | lineComment s =>
        simp only at hpred
        exact List.isEmpty_iff.mp hpred
      | blockComment s e =>
        simp only [Bool.or_eq_true] at hpred
        rcases hpred with hpred | hpred
        · exact Or.inl (List.isEmpty_iff.mp hpred)
        · exact Or.inr (List.isEmpty_iff.mp hpred)
      | string s =>
        simp only at hpred
        exact List.isEmpty_iff.mp hpred
    · rintro ⟨r, hr, hdelim⟩
      refine ⟨r, hr, ?_⟩
      cases r with
      | lineComment s =>
        simp only [hasEmptyDelimiter] at hdelim
        simp only [hdelim, List.isEmpty_nil]
      | blockComment s e =>
        simp only [hasEmptyDelimiter] at hdelim
        rcases hdelim with rfl | rfl
        · simp
        · simp
      | string s =>
        simp only [hasEmptyDelimiter] at hdelim
        simp only [hdelim, List.isEmpty_nil]
  refine ⟨?_, hiff, ?_⟩
  · unfold CommentParser.new
    by_cases hck : SyntaxRule.checkRules rules = true
    · rw [if_pos hck, hck]
      rfl
    · rw [if_neg hck]
      rw [Bool.not_eq_true] at hck
      rw [hck]
      rfl
  · intro hall
    have hck : SyntaxRule.checkRules rules = true := by
      by_contra hfalse
      rw [Bool.not_eq_true] at hfalse
      obtain ⟨r, hr, hdelim⟩ := hiff.mp hfalse
      exact hall r hr hdelim
    refine ⟨⟨text, 0, rules, SyntaxRule.maxRuleLen rules⟩, ?_⟩
    unfold CommentParser.new
    rw [if_pos hck]

/-- C8 (witness): the construction/validation equivalence applied to a
rule set with an empty delimiter and to one with all delimiters
non-empty. -/
theorem C8_construction_fails_iff_empty_delimiter_witness :
    ((CommentParser.new [97] [SyntaxRule.string []]).isSome =
      SyntaxRule.checkRules [SyntaxRule.string []]) ∧
    ((CommentParser.new [97] [SyntaxRule.string [34]]).isSome =
      SyntaxRule.checkRules [SyntaxRule.string [34]]) :=
  ⟨(C8_construction_fails_iff_empty_delimiter [97] [SyntaxRule.string []]).1,
    (C8_construction_fails_iff_empty_delimiter [97] [SyntaxRule.string [34]]).1⟩

/-- C9 (counterexample): the empty rule list passes validation and
constructs, yet the first Advance on a non-empty buffer panics, so the
cursor never reaches the buffer length: the scan does not terminate
normally, contradicting the claim for this valid rule set. -/
theorem C9_counterexample_empty_rules_never_reach_end :
    SyntaxRule.checkRules [] = true ∧
    CommentParser.new [98] [] = some ⟨[98], 0, [], 0⟩ ∧
    CommentParser.next ⟨[98], 0, [], 0⟩ = .error () ∧
    advanceN 3 ⟨[98], 0, [], 0⟩ = .error () := by
  refine ⟨by decide, by decide, by decide, by decide⟩

/-- C9 (amended): for scanner states over a validated, non-empty rule
set with ASCII delimiters whose line-comment starts are free of
line-terminator bytes, scanning a buffer in which a UTF-8 continuation
byte never directly follows an ASCII byte (true of every valid UTF-8
buffer, i.e. of every Rust `&str`): every Advance returning an event
strictly increases the cursor, after at most `length` Advance calls the
cursor reaches the buffer length, and once Advance returns end-of-input
every subsequent call returns end-of-input on an unchanged state. -/
theorem C9_amended_progress_termination_fused (p : CommentParser) (hp : Ready p) :
    (∀ e p', CommentParser.next p = .ok (some e, p') → p.index < p'.index) ∧
    (∃ q, advanceN p.text.length p = .ok q ∧ q.text = p.text ∧
      q.index = p.text.length) ∧
    (∀ q q' : CommentParser, CommentParser.next q = .ok (none, q') →
      CommentParser.next q' = .ok (none, q')) := by
  refine ⟨fun e p' h => (next_ok_some h).1, ?_, fun q q' h => next_none_fused h⟩
  obtain ⟨q, hq1, hq2, hq3, -⟩ :=
    @advanceN_reaches_end p.text.length p hp (by have := hp.1; omega)
  exact ⟨q, hq1, hq2, by rw [hq3, hq2]⟩

/-- C9 (amended, witness): two Advance calls exhaust the scanner over
`"#x"` with the single rule `LineComment "#"`. -/
theorem C9_amended_progress_termination_fused_witness :
    ∃ q, advanceN 2 ⟨[35, 120], 0, [.lineComment [35]], 1⟩ = .ok q ∧
      q.text = [35, 120] ∧ q.index = 2 :=
  (C9_amended_progress_termination_fused
    ⟨[35, 120], 0, [.lineComment [35]], 1⟩ (by decide)).2.1

/-- C10 (counterexample): a rule set with one rule and no empty
delimiter whose line-comment start contains a line-feed byte makes the
comment slice `&text[after_start..line_end]` reverse its bounds, so the
first Advance panics: with rule `LineComment "/\n"` and buffer
`"/\na"`, `new` succeeds but pulling crashes. -/
theorem C10_counterexample_line_delimiter_with_linefeed_panics :
    SyntaxRule.checkRules [SyntaxRule.lineComment [47, 10]] = true ∧
    ([SyntaxRule.lineComment [47, 10]] : List SyntaxRule) ≠ [] ∧
    CommentParser.new [47, 10, 97] [.lineComment [47, 10]] =
      some ⟨[47, 10, 97], 0, [.lineComment [47, 10]], 2⟩ ∧
    CommentParser.next ⟨[47, 10, 97], 0, [.lineComment [47, 10]], 2⟩ = .error () := by
  refine ⟨by decide, by decide, by decide, by decide⟩

/-- C10 (amended): for every rule set with at least one rule, no empty
delimiter sequence, ASCII delimiters, and line-comment starts free of
line-terminator bytes, and every buffer in which a UTF-8 continuation
byte never directly follows an ASCII byte (true of every valid UTF-8
buffer, i.e. of every Rust `&str`): the scanner starts at index 0 and
every Advance step from any in-bounds state succeeds (all modelled
slice accesses are in bounds and on char boundaries) and leaves the
cursor within the buffer. -/
theorem C10_amended_bounds_and_step_totality (text : List Nat)
    (rules : List SyntaxRule) (hck : SyntaxRule.checkRules rules = true)
    (hne : rules ≠ []) (hls : lineSafe rules = true)
    (ha : asciiRules rules = true) (hnc : noContAfterAscii text = true) :
    (∃ p₀, CommentParser.new text rules = some p₀ ∧ p₀.index = 0) ∧
    (∀ p : CommentParser, p.text = text → p.rules = rules →
      p.maxRuleLen = SyntaxRule.maxRuleLen rules → p.index ≤ text.length →
      ∃ r p', CommentParser.next p = .ok (r, p') ∧ p'.index ≤ text.length) := by
  constructor
  · refine ⟨⟨text, 0, rules, SyntaxRule.maxRuleLen rules⟩, ?_, rfl⟩
    unfold CommentParser.new
    rw [if_pos hck]
  · intro p ht hr hm hi
    have hready : Ready p := by
      refine ⟨by rw [ht]; exact hi, by rw [hm, hr], by rw [hr]; exact hck,
        by rw [hr]; exact hne, by rw [hr]; exact hls,
        by rw [hr]; exact ha, by rw [ht]; exact hnc⟩
    obtain ⟨⟨r, p'⟩, hn⟩ := next_total hready
    refine ⟨r, p', hn, ?_⟩
    cases r with
    | some e =>
      have hs := next_ok_some hn
      have := hs.2.1
      rw [ht] at this
      exact this
    | none =>
      have hs := next_ok_none hn
      rw [hs.1, hs.2.1, ht]

/-- C10 (amended, witness): the amended statement at the buffer `";;a"`
with the single rule `LineComment ";;"`. -/
theorem C10_amended_bounds_and_step_totality_witness :
    ∃ p₀, CommentParser.new [59, 59, 97] [SyntaxRule.lineComment [59, 59]] = some p₀ ∧
      p₀.index = 0 :=
  (C10_amended_bounds_and_step_totality [59, 59, 97] [.lineComment [59, 59]]
    (by decide) (by decide) (by decide) (by decide) (by decide)).1

/-- C5: every emitted line-comment event has `raw` equal to the full
physical line containing the match — its start is 0 or directly after a
line feed, no line feed occurs inside it, and its end is the buffer end
or sits at the line terminator (a line feed, or a carriage return
followed by the line feed or buffer end) — `text` runs from just after
the matched rule's start delimiter to the same line end, and the cursor
advances to the start of the next physical line (just past the next
line feed) or to the end of the buffer if no further line feed
exists. -/
theorem C5_line_comment_raw_is_full_line (p : CommentParser) (a b c d i' : Nat)
    (h : nextEvent p = .ok (some (.lineComment ⟨a, b⟩ ⟨c, d⟩), i')) :
    d = b ∧ a ≤ c ∧ c ≤ b ∧ b ≤ p.text.length ∧
    (a = 0 ∨ p.text.get? (a - 1) = some 10) ∧
    (∀ j, a ≤ j → j < b → p.text.get? j ≠ some 10) ∧
    (b = p.text.length ∨ p.text.get? b = some 10 ∨
      (p.text.get? b = some 13 ∧
        (b + 1 = p.text.length ∨ p.text.get? (b + 1) = some 10))) ∧
    (∃ m r, r ∈ p.rules ∧ r.start.isPrefixOf (p.text.drop m) = true ∧
      p.index ≤ m ∧ a = findLineStart p.text m ∧ b = findLineEnd p.text m ∧
      c = m + r.start.length) ∧
    ((∃ k, b ≤ k ∧ p.text.get? k = some 10 ∧ i' = k + 1 ∧
        ∀ j, b ≤ j → j < k → p.text.get? j ≠ some 10) ∨
      (i' = p.text.length ∧
        ∀ j, b ≤ j → j < p.text.length → p.text.get? j ≠ some 10)) := by
  obtain ⟨h1, h2, j, r, hS, hres⟩ := nextEvent_some_inv h
  obtain ⟨hmem, hprefT, hbound⟩ := scan_some_facts h1 hS
  cases r with
  | blockComment s e =>
    exfalso
    obtain ⟨be, hev, -⟩ := parseBlockComment_ok hres
    exact RawEvent.noConfusion hev
  | string s =>
    exfalso
    obtain ⟨be, hev, -⟩ := parseString_ok hres
    exact RawEvent.noConfusion hev
  | lineComment s =>
    dsimp only at hres
    simp only [SyntaxRule.start] at hprefT
    obtain ⟨hev, hidx, hb1, hb2, hb3⟩ := parseLineComment_ok hres
    simp only [RawEvent.lineComment.injEq, Span.mk.injEq] at hev
    obtain ⟨⟨ha, hbb⟩, hc, hd⟩ := hev
    subst ha
    subst hbb
    subst hc
    subst hd
    subst hidx
    have hm : p.index + j ≤ p.text.length := by omega
    obtain ⟨hbound1, hno1⟩ := findLineStart_spec hm
    obtain ⟨hno2, hend⟩ := findLineEnd_spec hm
    refine ⟨rfl, le_trans findLineStart_le (Nat.le_add_right _ _), hb2, hb3,
      hbound1, ?_, hend, ?_, ?_⟩
    · intro k hk1 hk2
      rcases Nat.lt_or_ge k (p.index + j) with hlt | hge
      · exact hno1 k hk1 hlt
      · exact hno2 k hge hk2
    · exact ⟨p.index + j, .lineComment s, hmem, isPrefixOf_of_take hprefT,
        Nat.le_add_right _ _, rfl, rfl, rfl⟩
    · exact findNextLineStart_spec

/-- C5 (witness): the full-line characterization applied to the scanner
over `"foo(); // bar"` with the single rule `LineComment "//"`, whose
first event is the line comment with raw span `[0, 13)` and text span
`[9, 13)`. -/
theorem C5_line_comment_raw_is_full_line_witness :
    ∃ m r, r ∈ ([SyntaxRule.lineComment [47, 47]] : List SyntaxRule) ∧
      r.start.isPrefixOf
        (([102, 111, 111, 40, 41, 59, 32, 47, 47, 32, 98, 97, 114] : List Nat).drop m) =
        true ∧
      0 ≤ m ∧
      0 = findLineStart [102, 111, 111, 40, 41, 59, 32, 47, 47, 32, 98, 97, 114] m ∧
      13 = findLineEnd [102, 111, 111, 40, 41, 59, 32, 47, 47, 32, 98, 97, 114] m ∧
      9 = m + r.start.length := by
  have h := C5_line_comment_raw_is_full_line
    ⟨[102, 111, 111, 40, 41, 59, 32, 47, 47, 32, 98, 97, 114], 0,
      [.lineComment [47, 47]], 2⟩
    0 13 9 13 13 (by decide)
  exact h.2.2.2.2.2.2.2.1

end CommentParserModel
